import Mathlib

/-!
# Verification of the pulsar RESP parser/encoder

A shallow embedding of the streaming REdis Serialization Protocol (RESP)
decoder of `src/extensions/src/parser.h` (class `RedisParser` together with
`Task` / `StringTask` / `ArrayTask`) and of the multi-bulk encoder of
`src/extensions/lib/parser.h` (`obj_bulk` / `obj_multibulk` /
`list_multibulk` / `pack_command`), with theorems checking the
specification's claims about them.

Modelling conventions:

* Byte strings (`std::string`) are `List Char`.
* Python objects produced by the decoder form the inductive `RValue`.
  The two injected factories `replyError` and `protocolError` are modelled
  by the constructors `RValue.replyErr` and `RValue.protoErr` (the model
  records which factory was applied to which message, which is all the
  decoder observes about them).  Python `None` (`Py_BuildValue("")`) is
  `RValue.nil`, a Python bytes object is `RValue.bulk`, a Python list is
  `RValue.array`, `PyLong_FromLongLong` is `RValue.int`.
* A `PyObject*` that may be `NULL` is `Option RValue` (`none` = `NULL`,
  which `RedisParser::get` turns into `Py_False`, i.e. "Incomplete").
* The C++ functions are partial (the decode loop recurses through the
  buffer); the model gives every function an explicit fuel argument.
  `DecodeResult.timeout` marks fuel exhaustion and is not a behaviour of
  the code: lemmas below show the result is fuel-independent once the
  fuel suffices, and that sufficient fuel always exists.
* `response.at(0)` on an empty line throws `std::out_of_range`; the
  exception escapes every caller (nothing catches it), modelled by the
  terminal outcome `DecodeResult.exn`.
* `set_encoding` only changes the host-level representation of completed
  bulk payloads (`PyUnicode_Decode` instead of raw bytes) and is not
  modelled; no claim involves it.  The `str` field of `StringTask` is
  never used by the source and is dropped.
* `atoi` returns a C `int`.  The model computes the exact mathematical
  value of the numeric prefix and then truncates it to 32 bits two's
  complement (`wrap32`), the conversion performed by `(int)strtol` on the
  reference platform; all in-range uses are unaffected.
* The comparison `parser.buffer.size() >= this->length+2` converts the
  signed `length+2` to `size_t`; the model applies `% 2^64` accordingly,
  and likewise for the `substr`/`erase` counts.
-/

namespace Pulsar

/-! ## Bytes, CRLF search, and C numeric conversion -/

/-- The protocol line terminator, `#define CRLF "\r\n"`. -/
def CRLF : List Char := ['\r', '\n']

/-- Position of the first occurrence of CRLF in a byte list:
`buffer.find(CRLF)`, with `none` for `std::string::npos`. -/
def findCRLF : List Char → Option Nat
  | [] => none
  | [_] => none
  | a :: b :: rest =>
    if a = '\r' ∧ b = '\n' then some 0 else (findCRLF (b :: rest)).map (· + 1)

/-- C `isspace` in the default locale, used by `atoi`. -/
def isCSpace (c : Char) : Bool :=
  c = ' ' || c = '\t' || c = '\n' || c = '\x0b' || c = '\x0c' || c = '\r'

/-- Accumulate the value of a maximal leading digit run, as `atoi` does
after sign processing. -/
def digitsVal : List Char → Int → Int
  | c :: rest, acc =>
    if c.isDigit then digitsVal rest (acc * 10 + ((c.toNat : Int) - 48)) else acc
  | [], acc => acc

/-- The mathematical value computed by C `atoi`: skip spaces, optional
sign, then a maximal digit run (empty run gives 0). -/
def rawAtoi (s : List Char) : Int :=
  match s.dropWhile isCSpace with
  | [] => 0
  | c :: rest =>
    if c = '-' then - digitsVal rest 0
    else if c = '+' then digitsVal rest 0
    else digitsVal (c :: rest) 0

/-- Two's-complement truncation to a 32-bit `int`. -/
def wrap32 (v : Int) : Int := (v + 2 ^ 31) % 2 ^ 32 - 2 ^ 31

/-- C `atoi`: lenient conversion returning an `int`. -/
def atoi (s : List Char) : Int := wrap32 (rawAtoi s)

/-! ## Decoder data model -/

/-- Decoded reply values (the Python objects the decoder produces).
`replyErr` and `protoErr` record an application of the injected
`replyError` / `protocolError` factory to a message. -/
inductive RValue where
  | status (s : List Char)
  | replyErr (s : List Char)
  | int (n : Int)
  | bulk (s : List Char)
  | nil
  | array (xs : List RValue)
  | protoErr (s : List Char)

mutual

/-- Boolean equality on reply values (written by hand: `RValue` nests
through `List`, which the `DecidableEq` deriving handler does not
support). -/
def RValue.beq : RValue → RValue → Bool
  | .status a, .status b => a == b
  | .replyErr a, .replyErr b => a == b
  | .int a, .int b => a == b
  | .bulk a, .bulk b => a == b
  | .nil, .nil => true
  | .array a, .array b => RValue.beqL a b
  | .protoErr a, .protoErr b => a == b
  | _, _ => false

/-- Boolean equality on lists of reply values. -/
def RValue.beqL : List RValue → List RValue → Bool
  | [], [] => true
  | a :: as, b :: bs => RValue.beq a b && RValue.beqL as bs
  | _, _ => false

end

mutual

theorem RValue.beq_iff : ∀ a b : RValue, RValue.beq a b = true ↔ a = b
  | a, b => by
    cases a <;> cases b <;>
      simp only [RValue.beq, beq_iff_eq, RValue.status.injEq, RValue.replyErr.injEq,
        RValue.int.injEq, RValue.bulk.injEq, RValue.array.injEq, RValue.protoErr.injEq,
        reduceCtorEq, Bool.false_eq_true]
    case array.array xs ys => exact RValue.beqL_iff xs ys

theorem RValue.beqL_iff : ∀ a b : List RValue, RValue.beqL a b = true ↔ a = b
  | [], [] => by simp [RValue.beqL]
  | [], _ :: _ => by simp [RValue.beqL]
  | _ :: _, [] => by simp [RValue.beqL]
  | x :: xs, y :: ys => by
    simp [RValue.beqL, Bool.and_eq_true, RValue.beq_iff x y, RValue.beqL_iff xs ys]

end

instance : DecidableEq RValue := fun a b => decidable_of_iff _ (RValue.beq_iff a b)

/-- Suspended decode work: `StringTask` and `ArrayTask` with their
`length`, the `ArrayTask`'s accumulator list, and the `next` continuation
link to the enclosing task. -/
inductive Task where
  | stringT (length : Int) (next : Option Task)
  | arrayT (length : Int) (array : List RValue) (next : Option Task)

/-- `Task::next`. -/
def Task.next : Task → Option Task
  | .stringT _ n => n
  | .arrayT _ _ n => n

mutual

/-- Boolean equality on tasks (hand-written, as for `RValue.beq`). -/
def Task.beq : Task → Task → Bool
  | .stringT l n, .stringT l' n' => l == l' && Task.beqO n n'
  | .arrayT l a n, .arrayT l' a' n' => l == l' && a == a' && Task.beqO n n'
  | _, _ => false

/-- Boolean equality on optional tasks. -/
def Task.beqO : Option Task → Option Task → Bool
  | none, none => true
  | some a, some b => Task.beq a b
  | _, _ => false

end

mutual

theorem Task.beqT_iff : ∀ a b : Task, Task.beq a b = true ↔ a = b
  | .stringT l n, .stringT l' n' => by
    simp [Task.beq, Bool.and_eq_true, Task.beqO_iff n n']
  | .stringT _ _, .arrayT _ _ _ => by simp [Task.beq]
  | .arrayT _ _ _, .stringT _ _ => by simp [Task.beq]
  | .arrayT l a n, .arrayT l' a' n' => by
    simp [Task.beq, Bool.and_eq_true, Task.beqO_iff n n', and_assoc]

theorem Task.beqO_iff : ∀ a b : Option Task, Task.beqO a b = true ↔ a = b
  | none, none => by simp [Task.beqO]
  | none, some _ => by simp [Task.beqO]
  | some _, none => by simp [Task.beqO]
  | some a, some b => by simp [Task.beqO, Task.beqT_iff a b]

end

instance : DecidableEq Task := fun a b => decidable_of_iff _ (Task.beqT_iff a b)

/-- The mutable state of a `RedisParser`: its byte buffer and the pending
task pointer `_current` (the factories and the encoding name are not part
of the model, see the header). -/
structure RedisParser where
  buffer : List Char
  _current : Option Task
deriving DecidableEq

/-- Outcome of one decoder entry point: a normal return (`out r st`, where
`r = none` is a `NULL` result, i.e. Incomplete), an escaped C++ exception
(`exn`, from `response.at(0)` on an empty header line), or fuel
exhaustion (`timeout`, not a code behaviour). -/
inductive DecodeResult where
  | out (r : Option RValue) (st : RedisParser)
  | exn
  | timeout
deriving DecidableEq

/-- The message passed to the protocol-error factory. -/
def protocolErrorMsg : List Char := "Protocol Error".toList

/-! ## The decoder

The C++ tasks are mutable heap objects, and `parser._current` may hold a
pointer to the very `ArrayTask` whose `_decode` is running (this happens
when `get` resumes `_current` and the head of the chain is an
`ArrayTask`).  In that case the in-place updates of `this->length` /
`this->array` are visible through `parser._current`, so the final
`else if (!parser._current) parser._current = this;` of
`ArrayTask::_decode`, which *keeps* the nonnull `_current`, keeps the task
with its UPDATED fields.  The functional model stores task values, so it
tracks this aliasing explicitly: `selfCur` records whether `_current`
currently points at the running `ArrayAsk` itself; it is initialised by a
value comparison at entry (sound, since a distinct task with an equal
value would have to contain itself) and is invalidated as soon as
`_current` changes.  When the loop ends with `_current` still aliasing
`this`, the model re-stores the task with its current fields, exactly as
the pointer semantics does. -/

/-- Tail of `ArrayTask::_decode` after the `while` loop: complete with the
accumulated array if the remaining count is zero, otherwise register the
task as `_current` if `_current` is null — or, if `_current` still aliases
`this` (`selfCur`), keep it with the updated fields. -/
def Task.arrayFinish (st : RedisParser) (length : Int) (array : List RValue)
    (next : Option Task) (selfCur : Bool) : DecodeResult :=
  if length = 0 then
    .out (some (.array array)) { st with _current := none }
  else
    match st._current with
    | none => .out none { st with _current := some (.arrayT length array next) }
    | some _ =>
      .out none (if selfCur then { st with _current := some (.arrayT length array next) } else st)

mutual

/-- `RedisParser::_get`: find a CRLF-terminated header line, consume it,
and dispatch on its leading byte. -/
def RedisParser._get : Nat → RedisParser → Option Task → DecodeResult
  | 0, _, _ => .timeout
  | fuel + 1, st, next =>
    match findCRLF st.buffer with
    | none => .out none st
    | some size =>
      let response := st.buffer.take size
      let st' : RedisParser := { st with buffer := st.buffer.drop (size + 2) }
      match response with
      | [] => .exn  -- response.at(0) throws std::out_of_range
      | rtype :: resp =>
        if rtype = '+' then .out (some (.status resp)) st'
        else if rtype = ':' then .out (some (.int (atoi resp))) st'
        else if rtype = '-' then .out (some (.replyErr resp)) st'
        else if rtype = '$' then RedisParser.decode fuel st' (.stringT (atoi resp) next)
        else if rtype = '*' then RedisParser.decode fuel st' (.arrayT (atoi resp) [] next)
        else .out (some (.protoErr protocolErrorMsg)) { st' with buffer := [] }

/-- `RedisParser::decode`: run a fresh task's `_decode` (the `delete` on
completion is memory management with no observable effect). -/
def RedisParser.decode : Nat → RedisParser → Task → DecodeResult
  | 0, _, _ => .timeout
  | fuel + 1, st, task => Task._decode fuel st task none

/-- `RedisParser::resume`: run `task->_decode`; on completion hand the
value to `task->next`, recursively. -/
def RedisParser.resume : Nat → RedisParser → Task → Option RValue → DecodeResult
  | 0, _, _, _ => .timeout
  | fuel + 1, st, task, result =>
    match Task._decode fuel st task result with
    | .out (some r) st' =>
      match task.next with
      | some nxt => RedisParser.resume fuel st' nxt (some r)
      | none => .out (some r) st'
    | other => other

/-- `StringTask::_decode` and `ArrayTask::_decode` (virtual dispatch on
the task variant). -/
def Task._decode : Nat → RedisParser → Task → Option RValue → DecodeResult
  | 0, _, _, _ => .timeout
  | _ + 1, st, .stringT length next, _ =>
    -- StringTask::_decode
    let st := { st with _current := (none : Option Task) }
    if length = -1 then .out (some .nil) st
    else if (st.buffer.length : Int) ≥ (length + 2) % 2 ^ 64 then
      .out (some (.bulk (st.buffer.take length.toNat)))
        { st with buffer := st.buffer.drop (length.toNat + 2) }
    else .out none { st with _current := some (.stringT length next) }
  | fuel + 1, st, .arrayT length array next, result =>
    -- ArrayTask::_decode
    if length = -1 then .out (some .nil) st
    else
      let selfCur : Bool := decide (st._current = some (.arrayT length array next))
      match result with
      | some r => Task.decodeLoop fuel st (length - 1) (array ++ [r]) next selfCur
      | none => Task.decodeLoop fuel st length array next selfCur

/-- The `while (this->length > 0)` loop of `ArrayTask::_decode`; `length`
and `array` are `this`'s fields, updated in place in the C++.  The task
value passed to `_get` as the continuation is `this` with its current
fields. -/
def Task.decodeLoop : Nat → RedisParser → Int → List RValue → Option Task → Bool → DecodeResult
  | 0, _, _, _, _, _ => .timeout
  | fuel + 1, st, length, array, next, selfCur =>
    if length > 0 then
      match RedisParser._get fuel st (some (.arrayT length array next)) with
      | .out (some r) st' =>
        Task.decodeLoop fuel st' (length - 1) (array ++ [r]) next
          (selfCur && decide (st'._current = st._current))
      | .out none st' =>
        Task.arrayFinish st' length array next
          (selfCur && decide (st'._current = st._current))
      | other => other
    else Task.arrayFinish st length array next selfCur

end

/-- `RedisParser::get`: resume the pending chain if any, else dispatch on
the buffer.  A `NULL` result becomes `Py_False` (Incomplete), modelled as
`.out none`. -/
def RedisParser.get : Nat → RedisParser → DecodeResult
  | 0, _ => .timeout
  | fuel + 1, st =>
    match st._current with
    | some task => RedisParser.resume fuel st task none
    | none => RedisParser._get fuel st none

/-- `RedisParser::feed`: append bytes to the buffer. -/
def RedisParser.feed (st : RedisParser) (data : List Char) : RedisParser :=
  { st with buffer := st.buffer ++ data }

/-- `RedisParser::get_buffer`: snapshot of the unconsumed buffer. -/
def RedisParser.get_buffer (st : RedisParser) : List Char := st.buffer

/-- A freshly constructed parser: empty buffer, `_current = NULL`. -/
def initParser : RedisParser := { buffer := [], _current := none }

/-! ## The encoder of `src/extensions/lib/parser.h`

The specification's Encoder (§4.4) is the multi-bulk serializer
`obj_multibulk` / `list_multibulk` / `pack_command` of
`src/extensions/lib/parser.h`.  Encoder inputs are host (Python) values,
modelled by `PyVal`: `None`, a bytes object, an int, or a list.  (A
unicode string is UTF-8-encoded to bytes before serialization and is
observationally a bytes object here; mappings, reached only by the
`PyMapping_Check` branch, are outside `PyVal` and not modelled — no claim
exercises `dict_multibulk`.) -/

/-- Host values handed to the encoder. -/
inductive PyVal where
  | pynone
  | pybytes (s : List Char)
  | pyint (n : Int)
  | pylist (xs : List PyVal)

/-- Digit-emitting loop for `natRepr`; the fuel argument makes the
recursion structural (any fuel above `n` gives the digits of `n`). -/
def natReprGo : Nat → Nat → List Char → List Char
  | 0, _, acc => acc
  | fuel + 1, n, acc =>
    if n < 10 then Nat.digitChar n :: acc
    else natReprGo fuel (n / 10) (Nat.digitChar (n % 10) :: acc)

/-- Decimal digits of a natural number, as produced by
`std::stringstream operator<<`. -/
def natRepr (n : Nat) : List Char := natReprGo (n + 1) n []

/-- Decimal representation of an integer (`operator<<` on a signed
value, also Python `str` of an int). -/
def intRepr (n : Int) : List Char :=
  if n < 0 then '-' :: natRepr (-n).toNat else natRepr n.toNat

/-- `to_bytes` (Python 3 branch of `src/extensions/src/parser.h`,
included from `utils.h` by the lib parser): bytes pass through, anything
else is stringified.  In `obj_multibulk` this fallback is only ever
reached with an int; `PyObject_Str` of an aggregate is not modelled. -/
def to_bytes : PyVal → List Char
  | .pybytes s => s
  | .pyint n => intRepr n
  | .pynone => "None".toList
  | .pylist _ => []

/-- `#define NIL string("$-1\r\n")`. -/
def NIL : List Char := "$-1\r\n".toList

/-- `obj_bulk`: `'$' << value.size() << CRLF << value << CRLF`. -/
def obj_bulk (value : List Char) : List Char :=
  '$' :: natRepr value.length ++ CRLF ++ value ++ CRLF

mutual

/-- `obj_multibulk` (Python 3 branch): `None` maps to the literal NIL
bytes, a bytes object to its bulk encoding, a list to a nested
multi-bulk block, anything else to the bulk encoding of `to_bytes`. -/
def obj_multibulk : PyVal → List Char
  | .pynone => NIL
  | .pybytes s => obj_bulk s
  | .pylist xs => '*' :: natRepr xs.length ++ CRLF ++ multibulk_join xs
  | .pyint n => obj_bulk (to_bytes (.pyint n))

/-- The `for` loop of `list_multibulk`: concatenation of the elements'
`obj_multibulk` encodings. -/
def multibulk_join : List PyVal → List Char
  | [] => []
  | v :: vs => obj_multibulk v ++ multibulk_join vs

end

/-- `list_multibulk`: `'*' << size << CRLF` followed by each element's
`obj_multibulk`. -/
def list_multibulk (args : List PyVal) : List Char :=
  '*' :: natRepr args.length ++ CRLF ++ multibulk_join args

/-- `pack_command` of `src/extensions/lib/parser.h`: the bytes of
`obj_multibulk` applied to the argument object. -/
def pack_command (obj : PyVal) : List Char := obj_multibulk obj

/-! ## Observation-level definitions used by the claims -/

/-- The decoder's result on a state, as a stable value: some fuel
suffices and every larger fuel agrees (fuel is an artefact of the
embedding; `fuel_mono` below shows agreement). -/
def Computes (st : RedisParser) (R : DecodeResult) : Prop :=
  ∃ f, ∀ g, f ≤ g → RedisParser.get g st = R

/-- `Drains st out st'`: repeatedly calling `getReply` from state `st`
returns the values `out` in order and then returns Incomplete once,
leaving state `st'` — the caller's standard drain loop. -/
inductive Drains : RedisParser → List RValue → RedisParser → Prop where
  | done {st st'} : Computes st (.out none st') → Drains st [] st'
  | step {st v st₁ vs st'} : Computes st (.out (some v) st₁) →
      Drains st₁ vs st' → Drains st (v :: vs) st'

/-- Chunked feeding: feed each chunk in turn, draining `getReply` after
each feed; collect all outputs. -/
inductive FeedDrains : RedisParser → List (List Char) → List RValue → RedisParser → Prop where
  | nil {st} : FeedDrains st [] [] st
  | cons {st chunk out₁ st₁ chunks out₂ st'} :
      Drains (st.feed chunk) out₁ st₁ → FeedDrains st₁ chunks out₂ st' →
      FeedDrains st (chunk :: chunks) (out₁ ++ out₂) st'

/-- No pending `ArrayTask` in a chain has declared length `-1` (an
`ArrayTask(-1)` resolves to Nil the moment it is created and is never
stored, so this holds of every reachable pending chain). -/
def chainOK : Option Task → Prop
  | none => True
  | some (.stringT _ n) => chainOK n
  | some (.arrayT l _ n) => l ≠ -1 ∧ chainOK n

mutual

/-- The reply a fresh decoder produces from an encoded host value
(specification side): bytes come back as a bulk string, `None` as Nil,
a list as an array — and an int as the bulk string of its decimal text,
since the encoder bulk-encodes `to_bytes` of it. -/
def toReply : PyVal → RValue
  | .pynone => .nil
  | .pybytes s => .bulk s
  | .pyint n => .bulk (intRepr n)
  | .pylist xs => .array (toReplyL xs)

/-- `toReply` on each element of a list. -/
def toReplyL : List PyVal → List RValue
  | [] => []
  | v :: vs => toReply v :: toReplyL vs

end

mutual

/-- All byte-string lengths, list lengths and decimal-text lengths in a
host value fit in a C `int`, so the headers the encoder writes for them
are parsed back exactly by `atoi`. -/
def sizedV : PyVal → Bool
  | .pynone => true
  | .pybytes s => s.length < 2 ^ 31
  | .pyint n => (intRepr n).length < 2 ^ 31
  | .pylist xs => xs.length < 2 ^ 31 && sizedL xs

/-- `sizedV` on each element of a list. -/
def sizedL : List PyVal → Bool
  | [] => true
  | v :: vs => sizedV v && sizedL vs

end

mutual

/-- Structural size of a host value, for induction. -/
def pysize : PyVal → Nat
  | .pylist xs => 1 + pysizeL xs
  | _ => 1

/-- Structural size of a list of host values. -/
def pysizeL : List PyVal → Nat
  | [] => 0
  | v :: vs => pysize v + pysizeL vs

end

/-- Number of tasks in a pending chain (following `next` links). -/
def chainLen : Option Task → Nat
  | none => 0
  | some (.stringT _ n) => chainLen n + 1
  | some (.arrayT _ _ n) => chainLen n + 1

/-- The value denoted by a list of decimal digits (specification side). -/
def digitsDenote (ds : List Char) : Nat :=
  ds.foldl (fun a c => a * 10 + (c.toNat - 48)) 0

/-- The integer denoted by `t` read as a decimal numeral (optional sign
followed by a nonempty digit run), or `none` if `t` is not a numeral
(specification side). -/
def numeral? (t : List Char) : Option Int :=
  match t with
  | [] => none
  | c :: ds =>
    if c = '-' then
      if ds ≠ [] ∧ ds.all Char.isDigit then some (-(digitsDenote ds : Int)) else none
    else if c = '+' then
      if ds ≠ [] ∧ ds.all Char.isDigit then some (digitsDenote ds : Int) else none
    else if (c :: ds).all Char.isDigit then some (digitsDenote (c :: ds) : Int)
    else none

/-- `t` is non-numeric for `atoi`: after skipping C whitespace there is
no digit right after the optional sign, so the digit run is empty
(specification side). -/
def NonNumeric (t : List Char) : Prop :=
  match t.dropWhile isCSpace with
  | [] => True
  | c :: rest =>
    if c = '-' ∨ c = '+' then
      match rest with
      | [] => True
      | d :: _ => d.isDigit = false
    else c.isDigit = false

/-! ## Single-level RESP units (C1)

Fragmentation invariance is analysed over byte streams that are
concatenations of well-formed wire units whose aggregates are
single-level: an array contains only scalar units.  (Deeper nesting
breaks invariance in the code: an inner array header dispatched during a
resume while `_current` is non-null is consumed but its task is
discarded.) -/

/-- Scalar (non-aggregate) wire units. -/
inductive SUnit where
  | ustatus (t : List Char)
  | uerror (t : List Char)
  | uint (t : List Char)
  | ubulk (p : List Char)
  | unil

/-- Top-level wire units: a scalar, or a single-level array of scalars. -/
inductive RUnit where
  | scalar (s : SUnit)
  | uarray (es : List SUnit)

/-- Bytes of a scalar unit on the wire. -/
def encS : SUnit → List Char
  | .ustatus t => '+' :: t ++ CRLF
  | .uerror t => '-' :: t ++ CRLF
  | .uint t => ':' :: t ++ CRLF
  | .ubulk p => obj_bulk p
  | .unil => NIL

/-- Bytes of a top-level unit on the wire. -/
def encU : RUnit → List Char
  | .scalar s => encS s
  | .uarray es => '*' :: natRepr es.length ++ CRLF ++ (es.map encS).flatten

/-- Bytes of a unit stream. -/
def encUs (us : List RUnit) : List Char := (us.map encU).flatten

/-- The reply a scalar unit decodes to. -/
def replyS : SUnit → RValue
  | .ustatus t => .status t
  | .uerror t => .replyErr t
  | .uint t => .int (atoi t)
  | .ubulk p => .bulk p
  | .unil => .nil

/-- The reply a top-level unit decodes to. -/
def replyU : RUnit → RValue
  | .scalar s => replyS s
  | .uarray es => .array (es.map replyS)

/-- Well-formed scalar: line texts contain no CR (the line ends at its
own CRLF), bulk payload lengths fit in a C `int`. -/
def wfS : SUnit → Bool
  | .ustatus t => t.all (· != '\r')
  | .uerror t => t.all (· != '\r')
  | .uint t => t.all (· != '\r')
  | .ubulk p => decide (p.length < 2 ^ 31)
  | .unil => true

/-- Well-formed top-level unit. -/
def wfU : RUnit → Bool
  | .scalar s => wfS s
  | .uarray es => decide (es.length < 2 ^ 31) && es.all wfS

/-- `SCut e q r ctx st`: `encS e = q ++ r` with `r ≠ []`, and a parser
that has consumed exactly `q` of the scalar, inside continuation context
`ctx` (the enclosing aggregate snapshot, or `none` at top level), has
drained to state `st`: either the cut is inside the (unterminated)
header line, or past a bulk header with the `StringTask` registered. -/
inductive SCut : SUnit → List Char → List Char → Option Task → RedisParser → Prop where
  | line {e : SUnit} {q r : List Char} (ctx : Option Task) :
      encS e = q ++ r → r ≠ [] → findCRLF q = none →
      SCut e q r ctx ⟨q, ctx⟩
  | payload {b q₂ r : List Char} (ctx : Option Task) :
      q₂ ++ r = b ++ CRLF → r ≠ [] →
      SCut (.ubulk b) ('$' :: natRepr b.length ++ CRLF ++ q₂) r ctx
        ⟨q₂, some (.stringT (b.length : Int) ctx)⟩

/-- `UCut u p s st`: `encU u = p ++ s` with `s ≠ []`, and a fresh parser
that has consumed exactly `p` has drained to state `st`: a scalar cut, a
cut inside an array's header line, or a cut at/inside element `e` of an
array with the elements `es₁` already accumulated. -/
inductive UCut : RUnit → List Char → List Char → RedisParser → Prop where
  | scalar {e : SUnit} {q r : List Char} {st : RedisParser} :
      SCut e q r none st → UCut (.scalar e) q r st
  | header {es : List SUnit} {p sH : List Char} :
      '*' :: natRepr es.length ++ CRLF = p ++ sH → sH ≠ [] → findCRLF p = none →
      UCut (.uarray es) p (sH ++ (es.map encS).flatten) ⟨p, none⟩
  | elems {es₁ : List SUnit} {e : SUnit} {es₂ : List SUnit} {q r : List Char}
      {st : RedisParser} :
      SCut e q r (some (.arrayT ((es₂.length : Int) + 1) (es₁.map replyS) none)) st →
      UCut (.uarray (es₁ ++ e :: es₂))
        (('*' :: natRepr (es₁ ++ e :: es₂).length ++ CRLF) ++ ((es₁.map encS).flatten ++ q))
        (r ++ (es₂.map encS).flatten) st

/-- Position of a drained parser within a well-formed unit stream: the
stream is exhausted, or the state is a cut of the head unit with the
suffix `s` of that unit (then the later units) still to arrive. -/
def PosP (st : RedisParser) (rem : List Char) (us : List RUnit) : Prop :=
  (us = [] ∧ rem = [] ∧ st = initParser) ∨
  (∃ u us₀ p s, us = u :: us₀ ∧ UCut u p s st ∧ rem = s ++ encUs us₀)

/-! ## Numeral lemmas -/

theorem digitChar_isDigit {d : Nat} (h : d < 10) : (Nat.digitChar d).isDigit = true := by
  interval_cases d <;> decide

theorem digitChar_toNat {d : Nat} (h : d < 10) : (Nat.digitChar d).toNat = 48 + d := by
  interval_cases d <;> decide

theorem natReprGo_acc : ∀ (fuel n : Nat) (acc : List Char),
    natReprGo fuel n acc = natReprGo fuel n [] ++ acc := by
  intro fuel
  induction fuel with
  | zero => intro n acc; rfl
  | succ fuel IH =>
    intro n acc
    rw [natReprGo, natReprGo]
    split
    · rfl
    · rw [IH (n / 10) (Nat.digitChar (n % 10) :: acc), IH (n / 10) [Nat.digitChar (n % 10)]]
      simp

theorem natReprGo_fuel : ∀ (n fuel : Nat), n < fuel → natReprGo fuel n [] = natRepr n := by
  intro n
  induction n using Nat.strong_induction_on with
  | _ n IHn =>
    intro fuel hf
    match fuel, hf with
    | fuel + 1, hf =>
      rw [natRepr, natReprGo, natReprGo]
      split
      · rfl
      · next h =>
        have hd : n / 10 < n := Nat.div_lt_self (by omega) (by omega)
        rw [natReprGo_acc fuel, natReprGo_acc n,
          IHn (n / 10) hd fuel (by omega), IHn (n / 10) hd n (by omega)]

/-- Recursive characterization of `natRepr`. -/
theorem natRepr_unfold (n : Nat) :
    natRepr n = if n < 10 then [Nat.digitChar n]
      else natRepr (n / 10) ++ [Nat.digitChar (n % 10)] := by
  rw [natRepr, natReprGo]
  split
  · rfl
  · next h =>
    rw [natReprGo_acc, natReprGo_fuel (n / 10) n (Nat.div_lt_self (by omega) (by omega))]

theorem natRepr_ne_nil (n : Nat) : natRepr n ≠ [] := by
  rw [natRepr_unfold]; split <;> simp

theorem natRepr_digits (n : Nat) : ∀ c ∈ natRepr n, c.isDigit = true := by
  induction n using Nat.strong_induction_on with
  | _ n IH =>
    rw [natRepr_unfold]
    split
    · next h => intro c hc; simp only [List.mem_singleton] at hc; subst hc
                exact digitChar_isDigit h
    · next h =>
      intro c hc
      rcases List.mem_append.mp hc with h' | h'
      · exact IH (n / 10) (Nat.div_lt_self (by omega) (by omega)) c h'
      · simp only [List.mem_singleton] at h'; subst h'
        exact digitChar_isDigit (Nat.mod_lt _ (by omega))

theorem isDigit_ne_cr {c : Char} (h : c.isDigit = true) : c ≠ '\r' := by
  rintro rfl; exact absurd h (by decide)

theorem isDigit_not_space {c : Char} (h : c.isDigit = true) : isCSpace c = false := by
  have hv : 48 ≤ c.toNat ∧ c.toNat ≤ 57 := by
    simpa [Char.isDigit, Char.le_def, Nat.decLe, decide_eq_true_eq,
      Bool.and_eq_true] using h
  simp only [isCSpace, Bool.or_eq_false_iff, decide_eq_false_iff_not]
  refine ⟨⟨⟨⟨⟨?_, ?_⟩, ?_⟩, ?_⟩, ?_⟩, ?_⟩ <;>
    (rintro rfl; revert hv; decide)

theorem digitsVal_append (xs ys : List Char) (acc : Int)
    (h : ∀ c ∈ xs, c.isDigit = true) :
    digitsVal (xs ++ ys) acc = digitsVal ys (digitsVal xs acc) := by
  induction xs generalizing acc with
  | nil => simp [digitsVal]
  | cons c xs IH =>
    have hc := h c (by simp)
    simp [digitsVal, hc, IH _ (fun c hc' => h c (by simp [hc']))]

theorem digitsVal_natRepr (n : Nat) : ∀ acc : Int,
    digitsVal (natRepr n) acc = acc * 10 ^ (natRepr n).length + n := by
  induction n using Nat.strong_induction_on with
  | _ n IH =>
    intro acc
    rw [natRepr_unfold]
    split
    · next h =>
      simp [digitsVal, digitChar_isDigit h, digitChar_toNat h]
    · next h =>
      rw [digitsVal_append _ _ _ (natRepr_digits _)]
      have h10 : n / 10 < n := Nat.div_lt_self (by omega) (by omega)
      have hm : n % 10 < 10 := Nat.mod_lt _ (by omega)
      simp [digitsVal, digitChar_isDigit hm, digitChar_toNat hm,
        IH (n / 10) h10, List.length_append]
      ring_nf
      omega

theorem rawAtoi_natRepr (n : Nat) : rawAtoi (natRepr n) = (n : Int) := by
  obtain ⟨c, t, hct⟩ : ∃ c t, natRepr n = c :: t := by
    cases h : natRepr n with
    | nil => exact absurd h (natRepr_ne_nil n)
    | cons c t => exact ⟨c, t, rfl⟩
  have hcd : c.isDigit = true := natRepr_digits n c (by rw [hct]; simp)
  have hdrop : (c :: t).dropWhile isCSpace = c :: t := by
    rw [List.dropWhile_cons, isDigit_not_space hcd]; simp
  have hval : digitsVal (c :: t) 0 = n := by
    have := digitsVal_natRepr n 0
    rw [hct] at this; simpa using this
  rw [rawAtoi, hct, hdrop]
  have h1 : c ≠ '-' := by rintro rfl; exact absurd hcd (by decide)
  have h2 : c ≠ '+' := by rintro rfl; exact absurd hcd (by decide)
  simp [h1, h2, hval]

theorem wrap32_eq {v : Int} (h1 : -(2 ^ 31) ≤ v) (h2 : v < 2 ^ 31) : wrap32 v = v := by
  unfold wrap32
  omega

theorem atoi_natRepr {n : Nat} (h : n < 2 ^ 31) : atoi (natRepr n) = (n : Int) := by
  rw [atoi, rawAtoi_natRepr]
  exact wrap32_eq (by omega) (by exact_mod_cast h)

/-! ## CRLF-search lemmas -/

theorem findCRLF_cons_ne {c : Char} (l : List Char) (hc : c ≠ '\r') :
    findCRLF (c :: l) = (findCRLF l).map (· + 1) := by
  cases l with
  | nil => simp [findCRLF]
  | cons b rest => simp [findCRLF, hc]

theorem findCRLF_none_of_no_cr {l : List Char} (h : ∀ c ∈ l, c ≠ '\r') :
    findCRLF l = none := by
  induction l with
  | nil => rfl
  | cons c t IH =>
    rw [findCRLF_cons_ne t (h c (by simp)), IH (fun c hc => h c (by simp [hc]))]
    rfl

theorem findCRLF_digits {l : List Char} (h : ∀ c ∈ l, c.isDigit = true) :
    findCRLF l = none :=
  findCRLF_none_of_no_cr (fun c hc => isDigit_ne_cr (h c hc))

theorem findCRLF_line (l rest : List Char) (h : findCRLF l = none) :
    findCRLF (l ++ '\r' :: '\n' :: rest) = some l.length := by
  induction l with
  | nil => simp [findCRLF]
  | cons c t IH =>
    cases t with
    | nil =>
      have hc : c ≠ '\r' ∨ True := Or.inr trivial
      show findCRLF (c :: '\r' :: '\n' :: rest) = some 1
      rw [findCRLF]
      rw [if_neg (by rintro ⟨_, h2⟩; exact absurd h2 (by decide))]
      rw [show findCRLF ('\r' :: '\n' :: rest) = some 0 by rw [findCRLF, if_pos ⟨rfl, rfl⟩]]
      rfl
    | cons b t' =>
      rw [findCRLF] at h
      by_cases hcb : c = '\r' ∧ b = '\n'
      · rw [if_pos hcb] at h; exact absurd h (by simp)
      · rw [if_neg hcb] at h
        have h' : findCRLF (b :: t') = none := by
          cases hfb : findCRLF (b :: t') with
          | none => rfl
          | some k => rw [hfb] at h; exact absurd h (by simp)
        have step : (c :: b :: t') ++ '\r' :: '\n' :: rest
            = c :: b :: (t' ++ '\r' :: '\n' :: rest) := by simp
        rw [step, findCRLF, if_neg hcb]
        have : b :: (t' ++ '\r' :: '\n' :: rest) = (b :: t') ++ '\r' :: '\n' :: rest := by simp
        rw [this, IH h']
        simp

/-! ## Fuel monotonicity

Once a run finishes (no `timeout`), giving it more fuel does not change
the result: the fuel is an artefact of the embedding, not of the code. -/

theorem fuel_mono : ∀ f : Nat,
    (∀ g st nxt, f ≤ g → RedisParser._get f st nxt ≠ .timeout →
      RedisParser._get g st nxt = RedisParser._get f st nxt) ∧
    (∀ g st t, f ≤ g → RedisParser.decode f st t ≠ .timeout →
      RedisParser.decode g st t = RedisParser.decode f st t) ∧
    (∀ g st t r, f ≤ g → RedisParser.resume f st t r ≠ .timeout →
      RedisParser.resume g st t r = RedisParser.resume f st t r) ∧
    (∀ g st t r, f ≤ g → Task._decode f st t r ≠ .timeout →
      Task._decode g st t r = Task._decode f st t r) ∧
    (∀ g st L a nx sc, f ≤ g → Task.decodeLoop f st L a nx sc ≠ .timeout →
      Task.decodeLoop g st L a nx sc = Task.decodeLoop f st L a nx sc) := by
  intro f
  induction f with
  | zero =>
    refine ⟨?_, ?_, ?_, ?_, ?_⟩ <;> intros <;>
      simp_all [RedisParser._get, RedisParser.decode, RedisParser.resume,
        Task._decode, Task.decodeLoop]
  | succ f IH =>
    obtain ⟨IHg, IHd, IHr, IHt, IHl⟩ := IH
    refine ⟨?_, ?_, ?_, ?_, ?_⟩
    · -- _get
      intro g st nxt hg hne
      obtain ⟨g', hg', rfl⟩ : ∃ g', f ≤ g' ∧ g = g' + 1 := ⟨g - 1, by omega, by omega⟩
      rw [RedisParser._get] at hne ⊢
      rw [RedisParser._get]
      cases hf : findCRLF st.buffer with
      | none => simp only [hf]
      | some size =>
        simp only [hf] at hne ⊢
        cases hresp : st.buffer.take size with
        | nil => simp only [hresp]
        | cons rtype resp =>
          simp only [hresp] at hne ⊢
          by_cases h1 : rtype = '+'
          · simp [h1]
          by_cases h2 : rtype = ':'
          · simp [h1, h2]
          by_cases h3 : rtype = '-'
          · simp [h1, h2, h3]
          by_cases h4 : rtype = '$'
          · simp only [h1, h2, h3, h4, if_true, if_false] at hne ⊢
            simp [h4] at hne ⊢
            exact IHd g' _ _ hg' hne
          by_cases h5 : rtype = '*'
          · simp [h1, h2, h3, h4, h5] at hne ⊢
            exact IHd g' _ _ hg' hne
          · simp [h1, h2, h3, h4, h5]
    · -- decode
      intro g st t hg hne
      obtain ⟨g', hg', rfl⟩ : ∃ g', f ≤ g' ∧ g = g' + 1 := ⟨g - 1, by omega, by omega⟩
      rw [RedisParser.decode] at hne ⊢
      rw [RedisParser.decode]
      exact IHt g' _ _ _ hg' hne
    · -- resume
      intro g st t r hg hne
      obtain ⟨g', hg', rfl⟩ : ∃ g', f ≤ g' ∧ g = g' + 1 := ⟨g - 1, by omega, by omega⟩
      rw [RedisParser.resume] at hne ⊢
      rw [RedisParser.resume]
      cases htd : Task._decode f st t r with
      | timeout => exact absurd (by simp [htd]) hne
      | exn => rw [IHt g' _ _ _ hg' (by simp [htd]), htd]
      | out r' st' =>
        rw [IHt g' _ _ _ hg' (by simp [htd]), htd]
        cases r' with
        | none => rfl
        | some v =>
          simp only [htd] at hne
          cases hnx : t.next with
          | none => simp only [hnx]
          | some nxt =>
            simp only [hnx] at hne ⊢
            exact IHr g' _ _ _ hg' hne
    · -- Task._decode
      intro g st t r hg hne
      obtain ⟨g', hg', rfl⟩ : ∃ g', f ≤ g' ∧ g = g' + 1 := ⟨g - 1, by omega, by omega⟩
      cases t with
      | stringT l n => rfl
      | arrayT l a n =>
        rw [Task._decode] at hne ⊢
        rw [Task._decode]
        by_cases hl : l = -1
        · simp [hl]
        · simp only [hl, if_false] at hne ⊢
          cases r with
          | none => exact IHl g' _ _ _ _ _ hg' hne
          | some v => exact IHl g' _ _ _ _ _ hg' hne
    · -- decodeLoop
      intro g st L a nx sc hg hne
      obtain ⟨g', hg', rfl⟩ : ∃ g', f ≤ g' ∧ g = g' + 1 := ⟨g - 1, by omega, by omega⟩
      rw [Task.decodeLoop] at hne ⊢
      rw [Task.decodeLoop]
      by_cases hL : L > 0
      · simp only [hL, if_pos] at hne ⊢
        cases hp : RedisParser._get f st (some (.arrayT L a nx)) with
        | timeout => exact absurd (by simp [hp]) hne
        | exn => rw [IHg g' _ _ hg' (by simp [hp]), hp]
        | out r' st' =>
          rw [IHg g' _ _ hg' (by simp [hp]), hp]
          cases r' with
          | none => rfl
          | some v =>
            simp only [hp] at hne
            exact IHl g' _ _ _ _ _ hg' hne
      · simp only [hL, if_false]

theorem _get_mono {f g : Nat} {st nxt} (hg : f ≤ g)
    (h : RedisParser._get f st nxt ≠ .timeout) :
    RedisParser._get g st nxt = RedisParser._get f st nxt :=
  (fuel_mono f).1 g st nxt hg h

theorem resume_mono {f g : Nat} {st t r} (hg : f ≤ g)
    (h : RedisParser.resume f st t r ≠ .timeout) :
    RedisParser.resume g st t r = RedisParser.resume f st t r :=
  (fuel_mono f).2.2.1 g st t r hg h

theorem decodeLoop_mono {f g : Nat} {st L a nx sc} (hg : f ≤ g)
    (h : Task.decodeLoop f st L a nx sc ≠ .timeout) :
    Task.decodeLoop g st L a nx sc = Task.decodeLoop f st L a nx sc :=
  (fuel_mono f).2.2.2.2 g st L a nx sc hg h

theorem _decode_mono {f g : Nat} {st t r} (hg : f ≤ g)
    (h : Task._decode f st t r ≠ .timeout) :
    Task._decode g st t r = Task._decode f st t r :=
  (fuel_mono f).2.2.2.1 g st t r hg h

theorem get_mono {f g : Nat} {st} (hg : f ≤ g)
    (h : RedisParser.get f st ≠ .timeout) :
    RedisParser.get g st = RedisParser.get f st := by
  match f, hg with
  | 0, _ => exact absurd rfl h
  | f + 1, hg =>
    obtain ⟨g', hg', rfl⟩ : ∃ g', f ≤ g' ∧ g = g' + 1 := ⟨g - 1, by omega, by omega⟩
    rw [RedisParser.get] at h ⊢
    rw [RedisParser.get]
    cases hc : st._current with
    | some task => simp only [hc] at h ⊢; exact resume_mono hg' h
    | none => simp only [hc] at h ⊢; exact _get_mono hg' h

theorem Computes.of_get (f : Nat) {st R} (h : RedisParser.get f st = R)
    (hR : R ≠ .timeout) : Computes st R :=
  ⟨f, fun g hg => by rw [get_mono hg (h ▸ hR), h]⟩

theorem Computes.unique {st R₁ R₂} (h₁ : Computes st R₁) (h₂ : Computes st R₂) :
    R₁ = R₂ := by
  obtain ⟨f₁, h₁⟩ := h₁
  obtain ⟨f₂, h₂⟩ := h₂
  rw [← h₁ (max f₁ f₂) (le_max_left _ _), ← h₂ (max f₁ f₂) (le_max_right _ _)]

theorem Drains.unique_outputs {st out₁ st₁ out₂ st₂} (h₁ : Drains st out₁ st₁)
    (h₂ : Drains st out₂ st₂) : out₁ = out₂ ∧ st₁ = st₂ := by
  induction h₁ generalizing out₂ st₂ with
  | done hc =>
    cases h₂ with
    | done hc₂ => exact ⟨rfl, by injection hc.unique hc₂⟩
    | step hc₂ _ => injection hc.unique hc₂ with h _; exact absurd h (by simp)
  | step hc _ IH =>
    cases h₂ with
    | done hc₂ => injection hc.unique hc₂ with h _; exact absurd h (by simp)
    | step hc₂ htl =>
      injection hc.unique hc₂ with h hst
      injection h with hv
      subst hv; subst hst
      obtain ⟨ho, hs⟩ := IH htl
      exact ⟨by rw [ho], hs⟩

/-! ## Single-step parse lemmas -/

theorem take_append_len (l r : List Char) : (l ++ r).take l.length = l := by
  induction l with
  | nil => rfl
  | cons c t IH => simp [IH]

theorem drop_append_len2 (l : List Char) (a b : Char) (r : List Char) :
    (l ++ a :: b :: r).drop (l.length + 2) = r := by
  induction l with
  | nil => rfl
  | cons c t IH =>
    show ((c :: t) ++ a :: b :: r).drop (t.length + 1 + 2) = r
    rw [List.cons_append, show t.length + 1 + 2 = (t.length + 2) + 1 from rfl,
      List.drop_succ_cons]
    exact IH

theorem _get_no_crlf {f : Nat} {st : RedisParser} {nxt}
    (h : findCRLF st.buffer = none) :
    RedisParser._get (f + 1) st nxt = .out none st := by
  rw [RedisParser._get, h]

theorem _get_exn {f : Nat} {rest : List Char} {cur nxt} :
    RedisParser._get (f + 1) ⟨'\r' :: '\n' :: rest, cur⟩ nxt = .exn := by
  rw [RedisParser._get]
  have h0 : findCRLF ((⟨'\r' :: '\n' :: rest, cur⟩ : RedisParser).buffer) = some 0 := by
    rw [show (⟨'\r' :: '\n' :: rest, cur⟩ : RedisParser).buffer = '\r' :: '\n' :: rest from rfl,
      findCRLF, if_pos ⟨rfl, rfl⟩]
  rw [h0]
  rfl

/-- Dispatch of `_get` on a buffer whose first CRLF-terminated line is
the nonempty `x :: l`. -/
theorem _get_line {f : Nat} (x : Char) (l rest : List Char) (cur : Option Task) (nxt)
    (h : findCRLF (x :: l) = none) :
    RedisParser._get (f + 1) ⟨(x :: l) ++ '\r' :: '\n' :: rest, cur⟩ nxt =
      if x = '+' then .out (some (.status l)) ⟨rest, cur⟩
      else if x = ':' then .out (some (.int (atoi l))) ⟨rest, cur⟩
      else if x = '-' then .out (some (.replyErr l)) ⟨rest, cur⟩
      else if x = '$' then RedisParser.decode f ⟨rest, cur⟩ (.stringT (atoi l) nxt)
      else if x = '*' then RedisParser.decode f ⟨rest, cur⟩ (.arrayT (atoi l) [] nxt)
      else .out (some (.protoErr protocolErrorMsg)) ⟨[], cur⟩ := by
  rw [RedisParser._get]
  have hf : findCRLF ((⟨(x :: l) ++ '\r' :: '\n' :: rest, cur⟩ : RedisParser).buffer)
      = some (x :: l).length := findCRLF_line _ _ h
  rw [hf]
  have ht : ((⟨(x :: l) ++ '\r' :: '\n' :: rest, cur⟩ : RedisParser).buffer).take (x :: l).length
      = x :: l := take_append_len _ _
  have hd : ((⟨(x :: l) ++ '\r' :: '\n' :: rest, cur⟩ : RedisParser).buffer).drop ((x :: l).length + 2)
      = rest := drop_append_len2 _ _ _ _
  simp only [ht, hd]

theorem _decode_string_nilCase {f : Nat} {st : RedisParser} {n r} :
    Task._decode (f + 1) st (.stringT (-1) n) r
      = .out (some .nil) { st with _current := none } := by
  rw [Task._decode]
  simp

/-- `StringTask::_decode` when at least `length + 2` bytes are buffered:
slice exactly `length` bytes, drop `length + 2`, regardless of what the
two bytes after the payload are. -/
theorem _decode_string_take {f : Nat} (payload : List Char) (x y : Char) (rest : List Char)
    {cur : Option Task} {n r} (h : (payload.length : Int) + 2 < 2 ^ 64) :
    Task._decode (f + 1) ⟨payload ++ x :: y :: rest, cur⟩ (.stringT payload.length n) r =
      .out (some (.bulk payload)) ⟨rest, none⟩ := by
  rw [Task._decode]
  have hne : ((payload.length : Int)) ≠ -1 := by omega
  rw [if_neg hne]
  have hmod : ((payload.length : Int) + 2) % 2 ^ 64 = (payload.length : Int) + 2 :=
    Int.emod_eq_of_lt (by omega) h
  rw [hmod]
  have hlen : (((⟨payload ++ x :: y :: rest, cur⟩ : RedisParser).buffer).length : Int)
      ≥ (payload.length : Int) + 2 := by
    simp [List.length_append]
    omega
  rw [if_pos hlen]
  have htn : ((payload.length : Int)).toNat = payload.length := Int.toNat_natCast _
  simp only [htn]
  have ht : (payload ++ x :: y :: rest).take payload.length = payload := take_append_len _ _
  have hd : (payload ++ x :: y :: rest).drop (payload.length + 2) = rest :=
    drop_append_len2 _ _ _ _
  simp [ht, hd]

/-- `StringTask::_decode` with insufficient bytes: no bytes consumed, the
task registers itself as `_current`. -/
theorem _decode_string_stall {f : Nat} {st : RedisParser} {m : Int} {n r}
    (hm : m ≠ -1) (hbuf : ¬ ((st.buffer.length : Int) ≥ (m + 2) % 2 ^ 64)) :
    Task._decode (f + 1) st (.stringT m n) r
      = .out none ⟨st.buffer, some (.stringT m n)⟩ := by
  rw [Task._decode]
  rw [if_neg hm, if_neg hbuf]

theorem multibulk_join_eq (vs : List PyVal) :
    multibulk_join vs = (vs.map obj_multibulk).flatten := by
  induction vs with
  | nil => rfl
  | cons v vs IH => rw [multibulk_join, IH]; simp

/-! # Claims -/

/-- C3: `"$-1\r\n"` decodes to Nil (not an empty bulk string),
`"*-1\r\n"` decodes to Nil (not an empty array), `"*0\r\n"` decodes to
the empty array; Nil, the empty bulk string and the empty array are
pairwise distinct decode results. -/
theorem claim3_nil_distinction :
    Computes ⟨"$-1\r\n".toList, none⟩ (.out (some .nil) ⟨[], none⟩) ∧
    Computes ⟨"*-1\r\n".toList, none⟩ (.out (some .nil) ⟨[], none⟩) ∧
    Computes ⟨"*0\r\n".toList, none⟩ (.out (some (.array [])) ⟨[], none⟩) ∧
    RValue.nil ≠ RValue.bulk [] ∧ RValue.nil ≠ RValue.array [] ∧
    RValue.bulk [] ≠ RValue.array [] :=
  ⟨Computes.of_get 32 (by decide) (by decide),
   Computes.of_get 32 (by decide) (by decide),
   Computes.of_get 32 (by decide) (by decide),
   by decide, by decide, by decide⟩

/-- C4: on a buffer whose first CRLF-terminated header line `x :: l`
starts with a byte other than `'+' ':' '-' '$' '*'`, `getReply` clears
the entire remaining buffer, returns the protocol-error factory object,
and a subsequent buffer snapshot is empty. -/
theorem claim4_protocol_error_fatal (x : Char) (l rest : List Char)
    (hx1 : x ≠ '+') (hx2 : x ≠ ':') (hx3 : x ≠ '-') (hx4 : x ≠ '$') (hx5 : x ≠ '*')
    (hl : findCRLF (x :: l) = none) :
    Computes ⟨(x :: l) ++ '\r' :: '\n' :: rest, none⟩
      (.out (some (.protoErr protocolErrorMsg)) ⟨[], none⟩) ∧
    RedisParser.get_buffer ⟨[], none⟩ = [] := by
  refine ⟨Computes.of_get 2 ?_ (by simp), rfl⟩
  show RedisParser.get (1 + 1) _ = _
  rw [RedisParser.get]
  show RedisParser._get (0 + 1) ⟨(x :: l) ++ '\r' :: '\n' :: rest, none⟩ none = _
  rw [_get_line x l rest none none hl]
  simp [hx1, hx2, hx3, hx4, hx5]

/-- Witness for C4 at the concrete input `"X\r\n"` of Scenario 6. -/
theorem claim4_witness :
    Computes ⟨"X\r\n".toList, none⟩
      (.out (some (.protoErr protocolErrorMsg)) ⟨[], none⟩) ∧
    RedisParser.get_buffer ⟨[], none⟩ = [] :=
  claim4_protocol_error_fatal 'X' [] [] (by decide) (by decide) (by decide)
    (by decide) (by decide) (by decide)

/-- C7: `pack` serializes an argument sequence as a multi-bulk block in
which every Nil (`None`) element contributes the literal bytes
`"$-1" ++ CRLF` — not a bulk encoding of a textual representation of
the nil value. -/
theorem claim7_encoder_nil (args : List PyVal) :
    pack_command (.pylist args) =
      '*' :: natRepr args.length ++ CRLF ++ (args.map obj_multibulk).flatten ∧
    obj_multibulk .pynone = "$-1".toList ++ CRLF ∧
    obj_multibulk .pynone ≠ obj_bulk (to_bytes .pynone) := by
  refine ⟨?_, by decide, by decide⟩
  rw [pack_command, obj_multibulk, multibulk_join_eq]

/-- C10: `StringTask::_decode` with declared length `N ≥ 0` and at least
`N + 2` buffered bytes returns the first `N` bytes as the value and
removes exactly `N + 2` bytes, never inspecting the two bytes that
follow the payload (no CRLF validation). -/
theorem claim10_bulk_trailer_unchecked (N : Nat) (b : List Char) (cur n : Option Task)
    (r : Option RValue) (f : Nat) (hlen : N + 2 ≤ b.length)
    (hrange : (N : Int) + 2 < 2 ^ 64) :
    Task._decode (f + 1) ⟨b, cur⟩ (.stringT (N : Int) n) r =
      .out (some (.bulk (b.take N))) ⟨b.drop (N + 2), none⟩ := by
  obtain ⟨x, y, rest, hd⟩ : ∃ x y rest, b.drop N = x :: y :: rest := by
    have h2 : 2 ≤ (b.drop N).length := by
      rw [List.length_drop]; omega
    match hb : b.drop N, h2 with
    | x :: y :: rest, _ => exact ⟨x, y, rest, rfl⟩
  have htl : (b.take N).length = N := by
    rw [List.length_take]; omega
  have hsplit : b.take N ++ x :: y :: rest = b := by
    rw [← hd, List.take_append_drop]
  have hrest : rest = b.drop (N + 2) := by
    have hdd : b.drop (N + 2) = (b.drop N).drop 2 := by
      rw [List.drop_drop]
    rw [hdd, hd]
    rfl
  have key := @_decode_string_take f (b.take N) x y rest cur n r (by rw [htl]; exact hrange)
  rw [htl] at key
  rw [hsplit] at key
  rw [← hrest]
  exact key

/-! ### C6: integer lines -/

theorem isDigit_bounds {c : Char} (h : c.isDigit = true) :
    48 ≤ c.toNat ∧ c.toNat ≤ 57 := by
  simpa [Char.isDigit, Char.le_def, Nat.decLe, decide_eq_true_eq,
    Bool.and_eq_true] using h

theorem digitsVal_denote (ds : List Char) (h : ∀ c ∈ ds, c.isDigit = true) :
    ∀ acc : Nat, digitsVal ds (acc : Int)
      = ((ds.foldl (fun a c => a * 10 + (c.toNat - 48)) acc : Nat) : Int) := by
  induction ds with
  | nil => intro acc; simp [digitsVal]
  | cons c ds IH =>
    intro acc
    have hc := h c (by simp)
    have h48 := (isDigit_bounds hc).1
    rw [digitsVal, if_pos hc, List.foldl_cons]
    have hcast : (acc : Int) * 10 + ((c.toNat : Int) - 48)
        = ((acc * 10 + (c.toNat - 48) : Nat) : Int) := by
      push_cast [Nat.cast_sub h48]
      ring
    rw [hcast]
    exact IH (fun c hc' => h c (by simp [hc'])) _

theorem digitsDenote_cast (ds : List Char) (h : ∀ c ∈ ds, c.isDigit = true) :
    (digitsDenote ds : Int) = digitsVal ds 0 := by
  have := digitsVal_denote ds h 0
  rw [digitsDenote]
  simpa using this.symm

theorem rawAtoi_numeral {t : List Char} {v : Int} (h : numeral? t = some v) :
    rawAtoi t = v := by
  cases t with
  | nil => exact absurd h (by simp [numeral?])
  | cons c ds =>
    rw [numeral?] at h
    by_cases hm : c = '-'
    · subst hm
      rw [if_pos rfl] at h
      by_cases hcond : ds ≠ [] ∧ ds.all Char.isDigit
      · rw [if_pos hcond] at h
        injection h with hv
        have hall : ∀ c ∈ ds, c.isDigit = true := by
          intro c hc; exact List.all_eq_true.mp hcond.2 c hc
        have hdw : ('-' :: ds).dropWhile isCSpace = '-' :: ds := by
          rw [List.dropWhile_cons, show isCSpace '-' = false from rfl]
          simp
        rw [rawAtoi]
        simp only [hdw]
        rw [← hv, ← digitsDenote_cast ds hall]
        simp
      · rw [if_neg hcond] at h; exact absurd h (by simp)
    · rw [if_neg hm] at h
      by_cases hp : c = '+'
      · subst hp
        rw [if_pos rfl] at h
        by_cases hcond : ds ≠ [] ∧ ds.all Char.isDigit
        · rw [if_pos hcond] at h
          injection h with hv
          have hall : ∀ c ∈ ds, c.isDigit = true := by
            intro c hc; exact List.all_eq_true.mp hcond.2 c hc
          have hdw : ('+' :: ds).dropWhile isCSpace = '+' :: ds := by
            rw [List.dropWhile_cons, show isCSpace '+' = false from rfl]
            simp
          rw [rawAtoi]
          simp only [hdw]
          rw [← hv, ← digitsDenote_cast ds hall]
          simp
        · rw [if_neg hcond] at h; exact absurd h (by simp)
      · rw [if_neg hp] at h
        by_cases hcond : (c :: ds).all Char.isDigit
        · rw [if_pos hcond] at h
          injection h with hv
          have hall : ∀ x ∈ c :: ds, x.isDigit = true := by
            intro x hx; exact List.all_eq_true.mp hcond x hx
          have hcd : c.isDigit = true := hall c (by simp)
          have hdw : (c :: ds).dropWhile isCSpace = c :: ds := by
            rw [List.dropWhile_cons, isDigit_not_space hcd]
            simp
          rw [rawAtoi]
          simp only [hdw]
          rw [← hv, ← digitsDenote_cast _ hall]
          simp [hm, hp]
        · rw [if_neg hcond] at h; exact absurd h (by simp)

theorem atoi_numeral {t : List Char} {v : Int} (h : numeral? t = some v)
    (h1 : -(2 ^ 31) ≤ v) (h2 : v < 2 ^ 31) : atoi t = v := by
  rw [atoi, rawAtoi_numeral h]
  exact wrap32_eq h1 h2

theorem atoi_nonNumeric {t : List Char} (h : NonNumeric t) : atoi t = 0 := by
  suffices hz : rawAtoi t = 0 by rw [atoi, hz]; decide
  unfold NonNumeric at h
  rw [rawAtoi]
  cases hdw : t.dropWhile isCSpace with
  | nil => simp
  | cons c rest =>
    simp only [hdw] at h ⊢
    by_cases hsign : c = '-' ∨ c = '+'
    · rw [if_pos hsign] at h
      have hrest : digitsVal rest 0 = 0 := by
        cases rest with
        | nil => rfl
        | cons d ds => rw [digitsVal, if_neg (by simp [h])]
      rcases hsign with rfl | rfl
      · simp [hrest]
      · simp [hrest]
    · rw [if_neg hsign] at h
      push_neg at hsign
      rw [if_neg hsign.1, if_neg hsign.2, digitsVal, if_neg (by simp [h])]

/-- C6 (amended): a header line `":<text>"` always yields an Integer
reply computed by the lenient `atoi`; when `<text>` is a decimal numeral
whose value fits in a C `int` (32-bit, not 64-bit as claimed) the exact
value is returned, and when `<text>` is non-numeric the value is 0. -/
theorem claim6_integer_amended (t rest : List Char) (h : findCRLF t = none) :
    Computes ⟨':' :: t ++ '\r' :: '\n' :: rest, none⟩
      (.out (some (.int (atoi t))) ⟨rest, none⟩) ∧
    (∀ v : Int, numeral? t = some v → -(2 ^ 31) ≤ v → v < 2 ^ 31 → atoi t = v) ∧
    (NonNumeric t → atoi t = 0) := by
  refine ⟨Computes.of_get 2 ?_ (by simp), fun v hv h1 h2 => atoi_numeral hv h1 h2,
    atoi_nonNumeric⟩
  show RedisParser.get (1 + 1) _ = _
  rw [RedisParser.get]
  show RedisParser._get (0 + 1) ⟨(':' :: t) ++ '\r' :: '\n' :: rest, none⟩ none = _
  rw [_get_line ':' t rest none none
    (by rw [findCRLF_cons_ne t (by decide), h]; rfl)]
  simp

/-- Witness for C6 at Scenario 2's input `":1000\r\n"`. -/
theorem claim6_witness :
    Computes ⟨':' :: "1000".toList ++ '\r' :: '\n' :: [], none⟩
      (.out (some (.int (atoi "1000".toList))) ⟨[], none⟩) ∧
    atoi "1000".toList = 1000 := by
  have h := claim6_integer_amended "1000".toList [] (by decide)
  exact ⟨h.1, h.2.1 1000 (by decide) (by decide) (by decide)⟩

/-- Counterexample for C6 as stated: `2147483648 = 2^31` is in signed
64-bit range, but the code converts with C `atoi` (returning `int`), so
`":2147483648\r\n"` decodes to the Integer `-2147483648`, not
`2147483648`. -/
theorem claim6_counterexample :
    Computes ⟨":2147483648\r\n".toList, none⟩
      (.out (some (.int (-2147483648))) ⟨[], none⟩) ∧
    (-(2 ^ 63) ≤ (2147483648 : Int) ∧ (2147483648 : Int) < 2 ^ 63) ∧
    RValue.int (-2147483648) ≠ RValue.int 2147483648 :=
  ⟨Computes.of_get 8 (by decide) (by decide), by decide, by decide⟩

/-! ### C9: a produced value leaves the pending pointer null -/

theorem arrayFinish_value {st : RedisParser} {L a nx sc v st'}
    (h : Task.arrayFinish st L a nx sc = .out (some v) st') : st'._current = none := by
  unfold Task.arrayFinish at h
  split at h
  · injection h with h1 h2; rw [← h2]
  · split at h
    · injection h with h1 _; exact absurd h1 (by simp)
    · injection h with h1 _; exact absurd h1 (by simp)

theorem chainOK_next {t : Task} {nxt : Task} (h : chainOK (some t))
    (hn : t.next = some nxt) : chainOK (some nxt) := by
  cases t with
  | stringT l n =>
    rw [show Task.next (.stringT l n) = n from rfl] at hn
    subst hn
    simpa [chainOK] using h
  | arrayT l a n =>
    rw [show Task.next (.arrayT l a n) = n from rfl] at hn
    subst hn
    exact ((by simpa [chainOK] using h : l ≠ -1 ∧ chainOK (some nxt))).2

theorem current_none_of_value : ∀ f : Nat,
    (∀ st nxt v st', st._current = none →
      RedisParser._get f st nxt = .out (some v) st' → st'._current = none) ∧
    (∀ st t v st', (∀ l a n, t = Task.arrayT l a n → l ≠ -1 ∨ st._current = none) →
      RedisParser.decode f st t = .out (some v) st' → st'._current = none) ∧
    (∀ st t r v st', (∀ l a n, t = Task.arrayT l a n → l ≠ -1 ∨ st._current = none) →
      Task._decode f st t r = .out (some v) st' → st'._current = none) ∧
    (∀ st L a nx sc v st',
      Task.decodeLoop f st L a nx sc = .out (some v) st' → st'._current = none) ∧
    (∀ st t r v st', chainOK (some t) →
      RedisParser.resume f st t r = .out (some v) st' → st'._current = none) := by
  intro f
  induction f with
  | zero =>
    refine ⟨?_, ?_, ?_, ?_, ?_⟩ <;> intros <;>
      simp_all [RedisParser._get, RedisParser.decode, RedisParser.resume,
        Task._decode, Task.decodeLoop]
  | succ f IH =>
    obtain ⟨IHg, IHd, IHt, IHl, IHr⟩ := IH
    have hstr : ∀ st (l : Int) n r v st', Task._decode (f + 1) st (.stringT l n) r
        = .out (some v) st' → st'._current = none := by
      intro st l n r v st' h
      rw [Task._decode] at h
      split at h
      · injection h with _ h2; rw [← h2]
      · split at h
        · injection h with _ h2; rw [← h2]
        · injection h with h1 _; exact absurd h1 (by simp)
    refine ⟨?_, ?_, ?_, ?_, ?_⟩
    · -- _get
      intro st nxt v st' hcur h
      rw [RedisParser._get] at h
      cases hf : findCRLF st.buffer with
      | none => simp only [hf] at h; injection h with h1 _; exact absurd h1 (by simp)
      | some size =>
        simp only [hf] at h
        cases hresp : st.buffer.take size with
        | nil => simp only [hresp] at h; exact absurd h (by simp)
        | cons rtype resp =>
          simp only [hresp] at h
          by_cases h1 : rtype = '+'
          · simp only [h1, if_pos rfl] at h
            injection h with _ h2; rw [← h2]; exact hcur
          by_cases h2 : rtype = ':'
          · simp [h1, h2] at h
            rw [← h.2]; exact hcur
          by_cases h3 : rtype = '-'
          · simp [h1, h2, h3] at h
            rw [← h.2]; exact hcur
          by_cases h4 : rtype = '$'
          · simp only [h1, h2, h3, h4, if_pos rfl, if_false] at h
            exact IHd _ _ _ _ (fun l a n heq => by cases heq) h
          by_cases h5 : rtype = '*'
          · simp only [h1, h2, h3, h4, h5, if_pos rfl, if_false] at h
            refine IHd _ _ _ _ (fun l a n heq => Or.inr ?_) h
            exact hcur
          · simp [h1, h2, h3, h4, h5] at h
            rw [← h.2]; exact hcur
    · -- decode
      intro st t v st' hcond h
      rw [RedisParser.decode] at h
      exact IHt _ _ _ _ _ hcond h
    · -- _decode
      intro st t r v st' hcond h
      cases t with
      | stringT l n => exact hstr _ _ _ _ _ _ h
      | arrayT l a n =>
        rw [Task._decode] at h
        by_cases hl : l = -1
        · rw [if_pos hl] at h
          injection h with _ h2
          rcases hcond l a n rfl with hc | hc
          · exact absurd hl hc
          · rw [← h2]; exact hc
        · rw [if_neg hl] at h
          cases r with
          | none => exact IHl _ _ _ _ _ _ _ h
          | some x => exact IHl _ _ _ _ _ _ _ h
    · -- decodeLoop
      intro st L a nx sc v st' h
      rw [Task.decodeLoop] at h
      by_cases hL : L > 0
      · rw [if_pos hL] at h
        cases hp : RedisParser._get f st (some (.arrayT L a nx)) with
        | timeout => simp [hp] at h
        | exn => simp [hp] at h
        | out r' st₁ =>
          cases r' with
          | none => simp only [hp] at h; exact arrayFinish_value h
          | some x => simp only [hp] at h; exact IHl _ _ _ _ _ _ _ h
      · rw [if_neg hL] at h
        exact arrayFinish_value h
    · -- resume
      intro st t r v st' hok h
      rw [RedisParser.resume] at h
      cases htd : Task._decode f st t r with
      | timeout => simp [htd] at h
      | exn => simp [htd] at h
      | out r₁ st₁ =>
        cases r₁ with
        | none => simp only [htd] at h; injection h with h1 _; exact absurd h1 (by simp)
        | some x =>
          simp only [htd] at h
          have hcond : ∀ l a n, t = Task.arrayT l a n → l ≠ -1 ∨ st._current = none := by
            intro l a n heq
            subst heq
            exact Or.inl ((by simpa [chainOK] using hok : l ≠ -1 ∧ chainOK n)).1
          cases hnx : t.next with
          | none =>
            simp only [hnx] at h
            injection h with _ h2
            rw [← h2]
            exact IHt _ _ _ _ _ hcond htd
          | some nxt =>
            simp only [hnx] at h
            exact IHr _ _ _ _ _ (chainOK_next hok hnx) h

/-- C9 (amended): every completed `getReply` call either produces a
value and leaves the pending-task pointer null (Idle), or returns
Incomplete; so a non-null pending task after the call implies the call
returned Incomplete.  (The converse claimed by C9 is false: with no
complete header line buffered, `getReply` returns Incomplete while the
pending pointer stays null — see the counterexample.)  The `chainOK`
hypothesis excludes unreachable pending chains containing an
`ArrayTask` of declared length `-1`. -/
theorem claim9_value_implies_idle (f : Nat) (st : RedisParser) (r : Option RValue)
    (st' : RedisParser) (hok : chainOK st._current)
    (h : RedisParser.get f st = .out r st') :
    r = none ∨ (∃ v, r = some v ∧ st'._current = none) := by
  cases r with
  | none => exact Or.inl rfl
  | some v =>
    refine Or.inr ⟨v, rfl, ?_⟩
    match f, h with
    | f + 1, h =>
      rw [RedisParser.get] at h
      cases hc : st._current with
      | some task =>
        rw [hc] at h
        rw [hc] at hok
        exact (current_none_of_value f).2.2.2.2 _ _ _ _ _ hok h
      | none =>
        rw [hc] at h
        exact (current_none_of_value f).1 _ _ _ _ hc h

/-- Witness for C9: a status reply leaves the pending pointer null. -/
theorem claim9_witness :
    RedisParser.get 8 ⟨"+OK\r\n".toList, none⟩
      = .out (some (.status "OK".toList)) ⟨[], none⟩ ∧
    (some (RValue.status "OK".toList) = none ∨
      (∃ v, some (RValue.status "OK".toList) = some v ∧
        (⟨[], none⟩ : RedisParser)._current = none)) :=
  ⟨by decide, claim9_value_implies_idle 8 ⟨"+OK\r\n".toList, none⟩ _ _
    (by simp [chainOK]) (by decide)⟩

/-- Counterexample for C9 as stated: with an empty buffer `getReply`
returns Incomplete while the pending-task pointer stays null, so
"Incomplete iff a pending task exists" fails right-to-left. -/
theorem claim9_counterexample :
    Computes ⟨[], none⟩ (.out none ⟨[], none⟩) ∧
    (⟨[], none⟩ : RedisParser)._current = none :=
  ⟨Computes.of_get 2 (by decide) (by decide), rfl⟩

/-! ### C5: totality of `getReply` -/

theorem findCRLF_le : ∀ {l : List Char} {n : Nat}, findCRLF l = some n → n + 2 ≤ l.length := by
  intro l
  induction l with
  | nil => intro n h; exact absurd h (by simp [findCRLF])
  | cons a t IH =>
    intro n h
    cases t with
    | nil => exact absurd h (by simp [findCRLF])
    | cons b rest =>
      rw [findCRLF] at h
      split at h
      · injection h with h0
        simp only [List.length_cons]
        omega
      · cases hf : findCRLF (b :: rest) with
        | none => rw [hf] at h; exact absurd h (by simp)
        | some k =>
          rw [hf] at h
          have h0 : k + 1 = n := by simpa using h
          have hI := IH hf
          simp only [List.length_cons] at hI ⊢
          omega

theorem arrayFinish_out_buffer {st : RedisParser} {L a nx sc r st'}
    (h : Task.arrayFinish st L a nx sc = .out r st') : st'.buffer = st.buffer := by
  unfold Task.arrayFinish at h
  split at h
  · cases h; rfl
  · split at h
    · cases h; rfl
    · cases h
      split <;> rfl

theorem arrayFinish_ne_timeout (st : RedisParser) (L : Int) (a : List RValue)
    (nx : Option Task) (sc : Bool) : Task.arrayFinish st L a nx sc ≠ .timeout := by
  unfold Task.arrayFinish
  split
  · simp
  · split
    · simp
    · split <;> simp

theorem buffer_mono : ∀ f : Nat,
    (∀ st nxt r st', RedisParser._get f st nxt = .out r st' →
      st'.buffer.length ≤ st.buffer.length ∧
        (r ≠ none → st'.buffer.length < st.buffer.length)) ∧
    (∀ st t r st', RedisParser.decode f st t = .out r st' →
      st'.buffer.length ≤ st.buffer.length) ∧
    (∀ st t x r st', Task._decode f st t x = .out r st' →
      st'.buffer.length ≤ st.buffer.length) ∧
    (∀ st L a nx sc r st', Task.decodeLoop f st L a nx sc = .out r st' →
      st'.buffer.length ≤ st.buffer.length) ∧
    (∀ st t x r st', RedisParser.resume f st t x = .out r st' →
      st'.buffer.length ≤ st.buffer.length) := by
  intro f
  induction f with
  | zero =>
    refine ⟨?_, ?_, ?_, ?_, ?_⟩ <;> intros <;>
      simp_all [RedisParser._get, RedisParser.decode, RedisParser.resume,
        Task._decode, Task.decodeLoop]
  | succ f IH =>
    obtain ⟨IHg, IHd, IHt, IHl, IHr⟩ := IH
    refine ⟨?_, ?_, ?_, ?_, ?_⟩
    · -- _get
      intro st nxt r st' h
      rw [RedisParser._get] at h
      cases hf : findCRLF st.buffer with
      | none =>
        simp only [hf] at h
        injection h with h1 h2
        subst h2
        exact ⟨le_refl _, fun hr => absurd h1.symm hr⟩
      | some size =>
        have hsz := findCRLF_le hf
        simp only [hf] at h
        cases hresp : st.buffer.take size with
        | nil => simp only [hresp] at h; exact absurd h (by simp)
        | cons rtype resp =>
          simp only [hresp] at h
          have hdlen : (st.buffer.drop (size + 2)).length < st.buffer.length := by
            rw [List.length_drop]; omega
          by_cases h1 : rtype = '+'
          · simp only [h1, if_pos rfl] at h
            cases h
            exact ⟨by simp [List.length_drop], fun _ => hdlen⟩
          by_cases h2 : rtype = ':'
          · simp [h1, h2] at h
            obtain ⟨_, h2'⟩ := h
            subst h2'
            exact ⟨le_of_lt hdlen, fun _ => hdlen⟩
          by_cases h3 : rtype = '-'
          · simp [h1, h2, h3] at h
            obtain ⟨_, h2'⟩ := h
            subst h2'
            exact ⟨le_of_lt hdlen, fun _ => hdlen⟩
          by_cases h4 : rtype = '$'
          · simp only [h1, h2, h3, h4, if_pos rfl, if_false] at h
            have := IHd _ _ _ _ h
            exact ⟨le_trans this (le_of_lt hdlen), fun _ => lt_of_le_of_lt this hdlen⟩
          by_cases h5 : rtype = '*'
          · simp only [h1, h2, h3, h4, h5, if_pos rfl, if_false] at h
            have := IHd _ _ _ _ h
            exact ⟨le_trans this (le_of_lt hdlen), fun _ => lt_of_le_of_lt this hdlen⟩
          · simp [h1, h2, h3, h4, h5] at h
            obtain ⟨_, h2'⟩ := h
            subst h2'
            exact ⟨by simp, fun _ => by simp; omega⟩
    · -- decode
      intro st t r st' h
      rw [RedisParser.decode] at h
      exact IHt _ _ _ _ _ h
    · -- _decode
      intro st t x r st' h
      cases t with
      | stringT l n =>
        rw [Task._decode] at h
        split at h
        · cases h; exact le_refl _
        · split at h
          · cases h
            simp [List.length_drop]
          · cases h; exact le_refl _
      | arrayT l a n =>
        rw [Task._decode] at h
        split at h
        · cases h; exact le_refl _
        · cases x with
          | none => exact IHl _ _ _ _ _ _ _ h
          | some v => exact IHl _ _ _ _ _ _ _ h
    · -- decodeLoop
      intro st L a nx sc r st' h
      rw [Task.decodeLoop] at h
      split at h
      · cases hp : RedisParser._get f st (some (.arrayT L a nx)) with
        | timeout => simp [hp] at h
        | exn => simp [hp] at h
        | out r' st₁ =>
          have hp1 := (IHg _ _ _ _ hp).1
          cases r' with
          | none =>
            simp only [hp] at h
            rw [arrayFinish_out_buffer h]
            exact hp1
          | some v =>
            simp only [hp] at h
            exact le_trans (IHl _ _ _ _ _ _ _ h) hp1
      · rw [arrayFinish_out_buffer h]
    · -- resume
      intro st t x r st' h
      rw [RedisParser.resume] at h
      cases htd : Task._decode f st t x with
      | timeout => simp [htd] at h
      | exn => simp [htd] at h
      | out r₁ st₁ =>
        have ht1 := IHt _ _ _ _ _ htd
        cases r₁ with
        | none =>
          simp only [htd] at h
          cases h
          exact ht1
        | some v =>
          simp only [htd] at h
          cases hnx : t.next with
          | none =>
            simp only [hnx] at h
            cases h
            exact ht1
          | some nxt =>
            simp only [hnx] at h
            exact le_trans (IHr _ _ _ _ _ h) ht1

theorem chainLen_pos (t : Task) : 1 ≤ chainLen (some t) := by
  cases t <;> simp [chainLen]

theorem chainLen_next {t nxt : Task} (h : t.next = some nxt) :
    chainLen (some nxt) + 1 = chainLen (some t) := by
  cases t with
  | stringT l n =>
    rw [show Task.next (.stringT l n) = n from rfl] at h
    subst h; simp [chainLen]
  | arrayT l a n =>
    rw [show Task.next (.arrayT l a n) = n from rfl] at h
    subst h; simp [chainLen]

theorem _decode_string_ne_timeout (f : Nat) (st : RedisParser) (l : Int)
    (n : Option Task) (r : Option RValue) :
    Task._decode (f + 1) st (.stringT l n) r ≠ .timeout := by
  rw [Task._decode]
  split
  · simp
  · split <;> simp

theorem total_components : ∀ N : Nat, ∀ st : RedisParser, st.buffer.length ≤ N →
    (∀ nxt, ∃ f, RedisParser._get f st nxt ≠ .timeout) ∧
    (∀ L a nx sc, ∃ f, Task.decodeLoop f st L a nx sc ≠ .timeout) ∧
    (∀ t r, ∃ f, Task._decode f st t r ≠ .timeout) ∧
    (∀ t, ∃ f, RedisParser.decode f st t ≠ .timeout) ∧
    (∀ t r, ∃ f, RedisParser.resume f st t r ≠ .timeout) := by
  intro N
  induction N using Nat.strong_induction_on with
  | _ N IH =>
    have pgetT : ∀ st : RedisParser, st.buffer.length ≤ N →
        ∀ nxt, ∃ f, RedisParser._get f st nxt ≠ .timeout := by
      intro st hst nxt
      cases hf : findCRLF st.buffer with
      | none => exact ⟨0 + 1, by rw [_get_no_crlf hf]; simp⟩
      | some size =>
        have hsz := findCRLF_le hf
        have hlt : (st.buffer.drop (size + 2)).length < N := by
          rw [List.length_drop]; omega
        cases hresp : st.buffer.take size with
        | nil =>
          refine ⟨0 + 1, ?_⟩
          rw [RedisParser._get]
          simp [hf, hresp]
        | cons rtype resp =>
          by_cases h4 : rtype = '$'
          · obtain ⟨f₁, hd⟩ := (IH _ hlt ⟨st.buffer.drop (size + 2), st._current⟩
              le_rfl).2.2.2.1 (.stringT (atoi resp) nxt)
            refine ⟨f₁ + 1, ?_⟩
            rw [RedisParser._get]
            simp only [hf, hresp]
            simp only [h4, if_pos rfl, if_false]
            simp [show rtype = '$' from h4]
            exact fun hto => hd (by rw [hto])
          by_cases h5 : rtype = '*'
          · obtain ⟨f₁, hd⟩ := (IH _ hlt ⟨st.buffer.drop (size + 2), st._current⟩
              le_rfl).2.2.2.1 (.arrayT (atoi resp) [] nxt)
            refine ⟨f₁ + 1, ?_⟩
            rw [RedisParser._get]
            simp only [hf, hresp]
            simp [h4, h5]
            exact fun hto => hd (by rw [hto])
          · refine ⟨0 + 1, ?_⟩
            rw [RedisParser._get]
            simp only [hf, hresp]
            by_cases h1 : rtype = '+'
            · simp [h1]
            by_cases h2 : rtype = ':'
            · simp [h1, h2]
            by_cases h3 : rtype = '-'
            · simp [h1, h2, h3]
            · simp [h1, h2, h3, h4, h5]
    have loopT : ∀ st : RedisParser, st.buffer.length ≤ N →
        ∀ L a nx sc, ∃ f, Task.decodeLoop f st L a nx sc ≠ .timeout := by
      intro st hst L a nx sc
      by_cases hL : L > 0
      · obtain ⟨f₁, hp⟩ := pgetT st hst (some (.arrayT L a nx))
        cases hres : RedisParser._get f₁ st (some (.arrayT L a nx)) with
        | timeout => exact absurd hres hp
        | exn =>
          refine ⟨f₁ + 1, ?_⟩
          rw [Task.decodeLoop, if_pos hL]
          simp [hres]
        | out r' st₁ =>
          cases r' with
          | none =>
            refine ⟨f₁ + 1, ?_⟩
            rw [Task.decodeLoop, if_pos hL]
            simp only [hres]
            exact arrayFinish_ne_timeout _ _ _ _ _
          | some v =>
            have hlt : st₁.buffer.length < st.buffer.length :=
              ((buffer_mono f₁).1 _ _ _ _ hres).2 (by simp)
            obtain ⟨f₂, hl₂⟩ := (IH st₁.buffer.length (by omega) st₁ le_rfl).2.1
              (L - 1) (a ++ [v]) nx (sc && decide (st₁._current = st._current))
            refine ⟨max f₁ f₂ + 1, ?_⟩
            rw [Task.decodeLoop, if_pos hL]
            rw [_get_mono (le_max_left f₁ f₂) (by rw [hres]; simp), hres]
            show Task.decodeLoop (max f₁ f₂) st₁ (L - 1) (a ++ [v]) nx _ ≠ _
            rw [decodeLoop_mono (le_max_right f₁ f₂) hl₂]
            exact hl₂
      · refine ⟨0 + 1, ?_⟩
        rw [Task.decodeLoop, if_neg hL]
        exact arrayFinish_ne_timeout _ _ _ _ _
    have tdecT : ∀ st : RedisParser, st.buffer.length ≤ N →
        ∀ t r, ∃ f, Task._decode f st t r ≠ .timeout := by
      intro st hst t r
      cases t with
      | stringT l n => exact ⟨0 + 1, _decode_string_ne_timeout 0 st l n r⟩
      | arrayT l a n =>
        by_cases hl : l = -1
        · exact ⟨0 + 1, by rw [Task._decode]; simp [hl]⟩
        · cases r with
          | none =>
            obtain ⟨f₁, h₁⟩ := loopT st hst l a n
              (decide (st._current = some (.arrayT l a n)))
            exact ⟨f₁ + 1, by rw [Task._decode]; simp only [hl, if_false]; exact h₁⟩
          | some v =>
            obtain ⟨f₁, h₁⟩ := loopT st hst (l - 1) (a ++ [v]) n
              (decide (st._current = some (.arrayT l a n)))
            exact ⟨f₁ + 1, by rw [Task._decode]; simp only [hl, if_false]; exact h₁⟩
    have decT : ∀ st : RedisParser, st.buffer.length ≤ N →
        ∀ t, ∃ f, RedisParser.decode f st t ≠ .timeout := by
      intro st hst t
      obtain ⟨f₁, h₁⟩ := tdecT st hst t none
      exact ⟨f₁ + 1, by rw [RedisParser.decode]; exact h₁⟩
    have resT : ∀ k : Nat, ∀ t : Task, chainLen (some t) ≤ k →
        ∀ st : RedisParser, st.buffer.length ≤ N →
        ∀ r, ∃ f, RedisParser.resume f st t r ≠ .timeout := by
      intro k
      induction k with
      | zero => intro t hk; exact absurd (le_trans (chainLen_pos t) hk) (by omega)
      | succ k IHk =>
        intro t hk st hst r
        obtain ⟨f₁, ht⟩ := tdecT st hst t r
        cases hres : Task._decode f₁ st t r with
        | timeout => exact absurd hres ht
        | exn => exact ⟨f₁ + 1, by rw [RedisParser.resume]; simp [hres]⟩
        | out r₁ st₁ =>
          cases r₁ with
          | none => exact ⟨f₁ + 1, by rw [RedisParser.resume]; simp [hres]⟩
          | some v =>
            cases hnx : t.next with
            | none => exact ⟨f₁ + 1, by rw [RedisParser.resume]; simp [hres, hnx]⟩
            | some nxt =>
              have hst₁ : st₁.buffer.length ≤ N :=
                le_trans ((buffer_mono f₁).2.2.1 _ _ _ _ _ hres) hst
              have hk' : chainLen (some nxt) ≤ k := by
                have := chainLen_next hnx
                omega
              obtain ⟨f₂, hr₂⟩ := IHk nxt hk' st₁ hst₁ (some v)
              refine ⟨max f₁ f₂ + 1, ?_⟩
              rw [RedisParser.resume]
              rw [_decode_mono (le_max_left f₁ f₂) (by rw [hres]; simp), hres]
              simp only [hnx]
              rw [resume_mono (le_max_right f₁ f₂) hr₂]
              exact hr₂
    intro st hst
    exact ⟨pgetT st hst, loopT st hst, tdecT st hst, decT st hst,
      fun t r => resT (chainLen (some t)) t le_rfl st hst r⟩

/-- Every `getReply` call terminates: with enough fuel the model never
times out, i.e. the C++ computation always returns a result or faults. -/
theorem get_total (st : RedisParser) : ∃ f, RedisParser.get f st ≠ .timeout := by
  have comp := total_components st.buffer.length st le_rfl
  cases hc : st._current with
  | none =>
    obtain ⟨f, h⟩ := comp.1 none
    exact ⟨f + 1, by rw [RedisParser.get]; simp only [hc]; exact h⟩
  | some t =>
    obtain ⟨f, h⟩ := comp.2.2.2.2 t none
    exact ⟨f + 1, by rw [RedisParser.get]; simp only [hc]; exact h⟩

/-- C5 (amended): every `getReply` call terminates with a result — a
ReplyValue, a factory object, or Incomplete — except that when a
dispatched header line is empty (bare CRLF), `response.at(0)` throws
`std::out_of_range` and the call aborts; for every nonempty header line
the leading-byte branch (five type bytes plus the protocol-error
default) covers the line. -/
theorem claim5_totality_amended :
    (∀ st : RedisParser, ∃ R, Computes st R ∧ R ≠ .timeout) ∧
    (∀ (f : Nat) (x : Char) (l rest : List Char) (cur nxt : Option Task),
      findCRLF (x :: l) = none →
      RedisParser._get (f + 1) ⟨(x :: l) ++ '\r' :: '\n' :: rest, cur⟩ nxt =
        (if x = '+' then .out (some (.status l)) ⟨rest, cur⟩
         else if x = ':' then .out (some (.int (atoi l))) ⟨rest, cur⟩
         else if x = '-' then .out (some (.replyErr l)) ⟨rest, cur⟩
         else if x = '$' then RedisParser.decode f ⟨rest, cur⟩ (.stringT (atoi l) nxt)
         else if x = '*' then RedisParser.decode f ⟨rest, cur⟩ (.arrayT (atoi l) [] nxt)
         else .out (some (.protoErr protocolErrorMsg)) ⟨[], cur⟩)) ∧
    (∀ (f : Nat) (rest : List Char) (cur nxt : Option Task),
      RedisParser._get (f + 1) ⟨'\r' :: '\n' :: rest, cur⟩ nxt = .exn) := by
  refine ⟨?_, fun f x l rest cur nxt h => _get_line x l rest cur nxt h,
    fun f rest cur nxt => _get_exn⟩
  intro st
  obtain ⟨f, h⟩ := get_total st
  exact ⟨RedisParser.get f st, Computes.of_get f rfl h, h⟩

/-- Witness for C5: concrete instances of totality (nonempty header
lines dispatch: the `'X'` line takes the default branch) and of the
empty-line fault. -/
theorem claim5_witness :
    (∃ R, Computes ⟨"*1\r\n".toList, none⟩ R ∧ R ≠ .timeout) ∧
    RedisParser._get 1 ⟨('X' :: []) ++ '\r' :: '\n' :: [], none⟩ none =
      .out (some (.protoErr protocolErrorMsg)) ⟨[], none⟩ ∧
    RedisParser._get 1 ⟨'\r' :: '\n' :: [], none⟩ none = .exn := by
  refine ⟨claim5_totality_amended.1 _, ?_, claim5_totality_amended.2.2 0 [] none none⟩
  have h := claim5_totality_amended.2.1 0 'X' [] [] none none (by decide)
  exact h.trans (by decide)

/-- Counterexample for C5 as stated: on the buffer consisting of a bare
CRLF, `getReply` does not return any result — the empty header line
makes `response.at(0)` throw — refuting "the branch on its leading byte
covers every possible line, including the empty line, without aborting
or throwing". -/
theorem claim5_counterexample :
    Computes ⟨"\r\n".toList, none⟩ .exn ∧
    ¬ ∃ r st', Computes ⟨"\r\n".toList, none⟩ (.out r st') := by
  have hx : Computes ⟨"\r\n".toList, none⟩ .exn :=
    Computes.of_get 2 (by decide) (by decide)
  refine ⟨hx, ?_⟩
  rintro ⟨r, st', hc⟩
  have := hc.unique hx
  simp at this

/-! ### Decoding the encoder's output (C8, C2) -/

theorem sized_int_range {n : Nat} (h : n < 2 ^ 31) : (n : Int) + 2 < 2 ^ 64 := by
  omega

/-- Parsing one bulk encoding `$<len>CRLF<s>CRLF` from the front of the
buffer: the payload comes back as a bulk value, `_current` is cleared. -/
theorem _get_obj_bulk (f : Nat) (s rest : List Char) (cur nxt : Option Task)
    (hlen : s.length < 2 ^ 31) :
    RedisParser._get (f + 3) ⟨obj_bulk s ++ rest, cur⟩ nxt =
      .out (some (.bulk s)) ⟨rest, none⟩ := by
  have hsh : obj_bulk s ++ rest
      = ('$' :: natRepr s.length) ++ '\r' :: '\n' :: (s ++ '\r' :: '\n' :: rest) := by
    simp [obj_bulk, CRLF]
  rw [show (⟨obj_bulk s ++ rest, cur⟩ : RedisParser)
      = ⟨('$' :: natRepr s.length) ++ '\r' :: '\n' :: (s ++ '\r' :: '\n' :: rest), cur⟩
    from by rw [hsh]]
  show RedisParser._get ((f + 2) + 1) _ _ = _
  rw [_get_line '$' (natRepr s.length) _ cur nxt
    (by rw [findCRLF_cons_ne _ (by decide), findCRLF_digits (natRepr_digits _)]; rfl)]
  rw [if_neg (by decide), if_neg (by decide), if_neg (by decide), if_pos rfl]
  rw [atoi_natRepr hlen]
  show RedisParser.decode ((f + 1) + 1) _ _ = _
  rw [RedisParser.decode]
  exact _decode_string_take s '\r' '\n' rest (sized_int_range hlen)

/-- Parsing the literal NIL encoding `$-1CRLF`: Nil, `_current` cleared. -/
theorem _get_nil (f : Nat) (rest : List Char) (cur nxt : Option Task) :
    RedisParser._get (f + 3) ⟨NIL ++ rest, cur⟩ nxt = .out (some .nil) ⟨rest, none⟩ := by
  show RedisParser._get ((f + 2) + 1) ⟨('$' :: ['-', '1']) ++ '\r' :: '\n' :: rest, cur⟩ nxt = _
  rw [_get_line '$' ['-', '1'] rest cur nxt (by decide)]
  rw [if_neg (by decide), if_neg (by decide), if_neg (by decide), if_pos rfl]
  rw [show atoi ['-', '1'] = -1 from by decide]
  show RedisParser.decode ((f + 1) + 1) _ _ = _
  rw [RedisParser.decode]
  exact _decode_string_nilCase

/-- Joint induction: a fresh dispatch on `obj_multibulk v ++ rest`
produces `toReply v` and leaves `⟨rest, none⟩`; the array decode loop
over `multibulk_join vs ++ rest` with remaining count `vs.length`
completes the array.  Both hold for any incoming `_current` and any
`selfCur` flag. -/
theorem decode_encoded : ∀ n : Nat,
    (∀ v : PyVal, pysize v ≤ n → sizedV v = true →
      ∀ (rest : List Char) (cur nxt : Option Task), ∃ f,
        RedisParser._get f ⟨obj_multibulk v ++ rest, cur⟩ nxt =
          .out (some (toReply v)) ⟨rest, none⟩) ∧
    (∀ vs : List PyVal, pysizeL vs ≤ n → sizedL vs = true →
      ∀ (acc : List RValue) (rest : List Char) (cur : Option Task) (nx : Option Task) (sc : Bool),
        ∃ f, Task.decodeLoop f ⟨multibulk_join vs ++ rest, cur⟩ (vs.length : Int) acc nx sc =
          .out (some (.array (acc ++ toReplyL vs))) ⟨rest, none⟩) := by
  intro n
  induction n using Nat.strong_induction_on with
  | _ n IH =>
    have hval : ∀ v : PyVal, pysize v ≤ n → sizedV v = true →
        ∀ (rest : List Char) (cur nxt : Option Task), ∃ f,
          RedisParser._get f ⟨obj_multibulk v ++ rest, cur⟩ nxt =
            .out (some (toReply v)) ⟨rest, none⟩ := by
      intro v hsz hsized rest cur nxt
      cases v with
      | pynone =>
        exact ⟨0 + 3, _get_nil 0 rest cur nxt⟩
      | pybytes s =>
        have hs : s.length < 2 ^ 31 := by simpa [sizedV] using hsized
        exact ⟨0 + 3, _get_obj_bulk 0 s rest cur nxt hs⟩
      | pyint m =>
        have hs : (intRepr m).length < 2 ^ 31 := by simpa [sizedV] using hsized
        exact ⟨0 + 3, _get_obj_bulk 0 (intRepr m) rest cur nxt hs⟩
      | pylist xs =>
        have hsplit : sizedL xs = true ∧ xs.length < 2 ^ 31 := by
          have := hsized
          simp [sizedV, Bool.and_eq_true] at this
          exact ⟨this.2, this.1⟩
        have hxs : pysizeL xs ≤ n - 1 := by
          have heq : pysize (.pylist xs) = 1 + pysizeL xs := rfl
          omega
        have hn1 : n - 1 < n := by
          have heq : pysize (.pylist xs) = 1 + pysizeL xs := rfl
          omega
        obtain ⟨f₂, hloop⟩ := (IH (n - 1) hn1).2 xs hxs hsplit.1 [] rest cur nxt
          (decide ((⟨multibulk_join xs ++ rest, cur⟩ : RedisParser)._current
            = some (.arrayT (xs.length : Int) [] nxt)))
        refine ⟨f₂ + 3, ?_⟩
        have hsh : obj_multibulk (.pylist xs) ++ rest
            = ('*' :: natRepr xs.length) ++ '\r' :: '\n' :: (multibulk_join xs ++ rest) := by
          rw [obj_multibulk]
          simp [CRLF]
        rw [show (⟨obj_multibulk (.pylist xs) ++ rest, cur⟩ : RedisParser)
            = ⟨('*' :: natRepr xs.length) ++ '\r' :: '\n' :: (multibulk_join xs ++ rest), cur⟩
          from by rw [hsh]]
        show RedisParser._get ((f₂ + 2) + 1) _ _ = _
        rw [_get_line '*' (natRepr xs.length) _ cur nxt
          (by rw [findCRLF_cons_ne _ (by decide), findCRLF_digits (natRepr_digits _)]; rfl)]
        rw [if_neg (by decide), if_neg (by decide), if_neg (by decide),
          if_neg (by decide), if_pos rfl]
        rw [atoi_natRepr hsplit.2]
        show RedisParser.decode ((f₂ + 1) + 1) _ _ = _
        rw [RedisParser.decode]
        show Task._decode (f₂ + 1) _ _ _ = _
        rw [Task._decode]
        rw [if_neg (by omega : ((xs.length : Nat) : Int) ≠ -1)]
        exact hloop.trans (by rw [show toReply (.pylist xs) = .array (toReplyL xs) from rfl]; simp)
    refine ⟨hval, ?_⟩
    -- element loop
    intro vs hsz hsized acc rest cur nx sc
    cases vs with
    | nil =>
      refine ⟨0 + 1, ?_⟩
      rw [Task.decodeLoop, if_neg (by simp)]
      simp [Task.arrayFinish, toReplyL, multibulk_join]
    | cons v vs' =>
      have hsizes : sizedV v = true ∧ sizedL vs' = true := by
        have := hsized
        simp [sizedL, Bool.and_eq_true] at this
        exact this
      have hszc : pysizeL (v :: vs') = pysize v + pysizeL vs' := rfl
      have h1 : 1 ≤ pysize v := by cases v <;> simp [pysize]
      obtain ⟨f₁, helem⟩ := hval v (by omega) hsizes.1
        (multibulk_join vs' ++ rest) cur (some (.arrayT ((v :: vs').length : Int) acc nx))
      obtain ⟨f₂, hrest⟩ := (IH (pysizeL vs') (by omega)).2 vs' le_rfl hsizes.2
        (acc ++ [toReply v]) rest none nx
        (sc && decide ((⟨multibulk_join vs' ++ rest, none⟩ : RedisParser)._current
          = (⟨multibulk_join (v :: vs') ++ rest, cur⟩ : RedisParser)._current))
      refine ⟨max f₁ f₂ + 1, ?_⟩
      rw [Task.decodeLoop, if_pos (by simp)]
      have hbuf : (⟨multibulk_join (v :: vs') ++ rest, cur⟩ : RedisParser)
          = ⟨obj_multibulk v ++ (multibulk_join vs' ++ rest), cur⟩ := by
        rw [show multibulk_join (v :: vs') = obj_multibulk v ++ multibulk_join vs' from rfl]
        simp
      rw [show RedisParser._get (max f₁ f₂)
            (⟨multibulk_join (v :: vs') ++ rest, cur⟩ : RedisParser)
            (some (.arrayT ((v :: vs').length : Int) acc nx))
          = .out (some (toReply v)) ⟨multibulk_join vs' ++ rest, none⟩ from by
        rw [hbuf, _get_mono (le_max_left f₁ f₂) (by rw [helem]; simp), helem]]
      show Task.decodeLoop (max f₁ f₂) ⟨multibulk_join vs' ++ rest, none⟩
        (((v :: vs').length : Int) - 1) (acc ++ [toReply v]) nx _ = _
      rw [show (((v :: vs').length : Int)) - 1 = (vs'.length : Int) from by
        simp [List.length_cons]]
      rw [decodeLoop_mono (le_max_right f₁ f₂) (by rw [hrest]; simp)]
      exact hrest.trans (by simp [toReplyL])

theorem toReplyL_append (vs ws : List PyVal) :
    toReplyL (vs ++ ws) = toReplyL vs ++ toReplyL ws := by
  induction vs with
  | nil => rfl
  | cons v vs IH =>
    show toReply v :: toReplyL (vs ++ ws) = _
    rw [IH]
    rfl

theorem sizedL_append (vs ws : List PyVal) :
    sizedL (vs ++ ws) = (sizedL vs && sizedL ws) := by
  induction vs with
  | nil => simp [sizedL]
  | cons v vs IH =>
    show (sizedV v && sizedL (vs ++ ws)) = _
    rw [IH]
    show _ = ((sizedV v && sizedL vs) && sizedL ws)
    rw [Bool.and_assoc]

/-- A fresh decoder whose buffer holds exactly the encoder's bytes for a
sized host value produces `toReply` of that value and returns to the
initial state. -/
theorem computes_encoded (v : PyVal) (hs : sizedV v = true) :
    Computes ⟨obj_multibulk v, none⟩ (.out (some (toReply v)) ⟨[], none⟩) := by
  obtain ⟨f, h⟩ := (decode_encoded (pysize v)).1 v le_rfl hs [] none none
  rw [List.append_nil] at h
  exact Computes.of_get (f + 1) (by rw [RedisParser.get]; exact h) (by simp)

/-- On an empty buffer with no pending task, `getReply` returns
Incomplete and leaves the state unchanged. -/
theorem computes_empty : Computes initParser (.out none initParser) :=
  Computes.of_get 2 rfl (by simp)

/-- Draining a fresh decoder fed the encoder's bytes for one sized host
value yields exactly that value's `toReply` image. -/
theorem drains_encoded (v : PyVal) (hs : sizedV v = true) :
    Drains ⟨obj_multibulk v, none⟩ [toReply v] initParser :=
  .step (computes_encoded v hs) (.done computes_empty)

/-- Feeding only a prefix of an array's elements: the element loop
consumes the prefix, stalls on the then-empty buffer, and registers the
aggregate (remaining count, accumulated values so far) as the pending
task. -/
theorem encoded_stall : ∀ vs : List PyVal, sizedL vs = true →
    ∀ extra : Int, 0 < extra →
    ∀ (acc : List RValue) (nx : Option Task) (sc : Bool), ∃ f,
      Task.decodeLoop f ⟨multibulk_join vs, none⟩ ((vs.length : Int) + extra) acc nx sc =
        .out none ⟨[], some (.arrayT extra (acc ++ toReplyL vs) nx)⟩ := by
  intro vs
  induction vs with
  | nil =>
    intro _ extra hx acc nx sc
    refine ⟨0 + 1 + 1, ?_⟩
    rw [show multibulk_join ([] : List PyVal) = [] from rfl]
    rw [show ((([] : List PyVal).length : Int) + extra) = extra from by simp]
    rw [Task.decodeLoop, if_pos hx]
    rw [@_get_no_crlf 0 ⟨[], none⟩ (some (.arrayT extra acc nx)) rfl]
    show Task.arrayFinish ⟨[], none⟩ extra acc nx _ = _
    unfold Task.arrayFinish
    rw [if_neg (by omega : ¬ extra = 0)]
    simp [toReplyL]
  | cons v vs IH =>
    intro hs extra hx acc nx sc
    have hsv : sizedV v = true ∧ sizedL vs = true := by
      have := hs
      simp [sizedL, Bool.and_eq_true] at this
      exact this
    obtain ⟨f₁, helem⟩ := (decode_encoded (pysize v)).1 v le_rfl hsv.1
      (multibulk_join vs) none (some (.arrayT (((v :: vs).length : Int) + extra) acc nx))
    obtain ⟨f₂, hrest⟩ := IH hsv.2 extra hx (acc ++ [toReply v]) nx
      (sc && decide ((⟨multibulk_join vs, none⟩ : RedisParser)._current
        = (⟨multibulk_join (v :: vs), none⟩ : RedisParser)._current))
    refine ⟨max f₁ f₂ + 1, ?_⟩
    rw [Task.decodeLoop, if_pos (by omega)]
    have hbuf : (⟨multibulk_join (v :: vs), none⟩ : RedisParser)
        = ⟨obj_multibulk v ++ multibulk_join vs, none⟩ := by
      rw [show multibulk_join (v :: vs) = obj_multibulk v ++ multibulk_join vs from rfl]
    rw [show RedisParser._get (max f₁ f₂) (⟨multibulk_join (v :: vs), none⟩ : RedisParser)
          (some (.arrayT (((v :: vs).length : Int) + extra) acc nx))
        = .out (some (toReply v)) ⟨multibulk_join vs, none⟩ from by
      rw [hbuf, _get_mono (le_max_left f₁ f₂) (by rw [helem]; simp), helem]]
    show Task.decodeLoop (max f₁ f₂) ⟨multibulk_join vs, none⟩
      ((((v :: vs).length : Int) + extra) - 1) (acc ++ [toReply v]) nx _ = _
    rw [show ((((v :: vs).length : Int) + extra) - 1) = (vs.length : Int) + extra from by
      push_cast [List.length_cons]; ring]
    rw [decodeLoop_mono (le_max_right f₁ f₂) (by rw [hrest]; simp)]
    exact hrest.trans (by simp [toReplyL])

/-- C8 (amended): draining a fresh decoder fed the bytes of
`pack_command` over an argument list reproduces each argument as
`toReply` maps it — `None` as Nil, a bytes object as that bulk string, a
nested list as the corresponding nested array — but an int comes back as
the bulk string of its decimal text, not as an Integer reply, because
the encoder bulk-encodes `to_bytes` of it.  The elementwise round trip
of the original claim holds for none/bytes/list arguments and fails on
int arguments (and status/error replies have no encoder-side
representation at all). -/
theorem claim8_roundtrip_amended (args : List PyVal)
    (hs : sizedV (.pylist args) = true) :
    Drains ⟨pack_command (.pylist args), none⟩ [.array (toReplyL args)] initParser :=
  drains_encoded (.pylist args) hs

/-- Witness for C8: `pack(["foo", None, ["ok"]])` decodes back to the
array `["foo", Nil, ["ok"]]`. -/
theorem claim8_witness :
    sizedV (.pylist [.pybytes ['f', 'o', 'o'], .pynone, .pylist [.pybytes ['o', 'k']]]) = true ∧
    Drains ⟨pack_command (.pylist [.pybytes ['f', 'o', 'o'], .pynone,
        .pylist [.pybytes ['o', 'k']]]), none⟩
      [.array [.bulk ['f', 'o', 'o'], .nil, .array [.bulk ['o', 'k']]]] initParser :=
  ⟨by decide, claim8_roundtrip_amended
    [.pybytes ['f', 'o', 'o'], .pynone, .pylist [.pybytes ['o', 'k']]] (by decide)⟩

/-- Counterexample to the original C8: `pack([5])` produces
`"*1\r\n$1\r\n5\r\n"`, which decodes to an array holding the bulk string
`"5"` — and does not decode to an array holding the Integer 5, so the
int argument is not reproduced by the round trip. -/
theorem claim8_counterexample :
    Drains ⟨pack_command (.pylist [.pyint 5]), none⟩
      [.array [.bulk ['5']]] initParser ∧
    ¬ Drains ⟨pack_command (.pylist [.pyint 5]), none⟩
      [.array [.int 5]] initParser := by
  have hd := drains_encoded (.pylist [.pyint 5]) (by decide)
  have he : toReply (.pylist [.pyint 5]) = .array [.bulk ['5']] := by decide
  rw [he] at hd
  refine ⟨hd, fun h => ?_⟩
  exact absurd (Drains.unique_outputs hd h).1 (by decide)

/-- C2: with an array header announcing `vs ++ ws` elements but only the
elements `vs` buffered, `getReply` returns Incomplete and the aggregate
becomes the pending task, its accumulator holding the decoded `vs` and
its count the `ws.length` still missing; after the remaining element
bytes are fed, the next `getReply` returns the complete array with all
elements in order. -/
theorem claim2_suspend_resume (vs ws : List PyVal) (hw : ws ≠ [])
    (hs : sizedL (vs ++ ws) = true) (hlen : (vs ++ ws).length < 2 ^ 31) :
    Computes ⟨'*' :: natRepr (vs ++ ws).length ++ CRLF ++ multibulk_join vs, none⟩
      (.out none ⟨[], some (.arrayT (ws.length : Int) (toReplyL vs) none)⟩) ∧
    Computes ((⟨[], some (.arrayT (ws.length : Int) (toReplyL vs) none)⟩ : RedisParser).feed
        (multibulk_join ws))
      (.out (some (.array (toReplyL (vs ++ ws)))) ⟨[], none⟩) := by
  have hsplit : sizedL vs = true ∧ sizedL ws = true := by
    have := hs
    rw [sizedL_append, Bool.and_eq_true] at this
    exact this
  constructor
  · obtain ⟨f₁, hst⟩ := encoded_stall vs hsplit.1 (ws.length : Int)
      (by have := List.length_pos.mpr hw; omega) [] none
      (decide ((⟨multibulk_join vs, none⟩ : RedisParser)._current
        = some (.arrayT ((vs.length : Int) + (ws.length : Int)) [] none)))
    refine Computes.of_get (f₁ + 4) ?_ (by simp)
    rw [RedisParser.get]
    have hsh : '*' :: natRepr (vs ++ ws).length ++ CRLF ++ multibulk_join vs
        = ('*' :: natRepr (vs ++ ws).length) ++ '\r' :: '\n' :: multibulk_join vs := by
      simp [CRLF]
    rw [show (⟨'*' :: natRepr (vs ++ ws).length ++ CRLF ++ multibulk_join vs, none⟩ : RedisParser)
        = ⟨('*' :: natRepr (vs ++ ws).length) ++ '\r' :: '\n' :: multibulk_join vs, none⟩
      from by rw [hsh]]
    show RedisParser._get ((f₁ + 2) + 1) _ _ = _
    rw [_get_line '*' (natRepr (vs ++ ws).length) _ none none
      (by rw [findCRLF_cons_ne _ (by decide), findCRLF_digits (natRepr_digits _)]; rfl)]
    rw [if_neg (by decide), if_neg (by decide), if_neg (by decide),
      if_neg (by decide), if_pos rfl]
    rw [atoi_natRepr hlen]
    show RedisParser.decode ((f₁ + 1) + 1) _ _ = _
    rw [RedisParser.decode]
    show Task._decode (f₁ + 1) _ _ _ = _
    rw [Task._decode]
    rw [if_neg (by omega : ¬ (((vs ++ ws).length : Nat) : Int) = -1)]
    show Task.decodeLoop f₁ ⟨multibulk_join vs, none⟩ (((vs ++ ws).length : Nat) : Int) [] none _ = _
    rw [show (((vs ++ ws).length : Nat) : Int) = (vs.length : Int) + (ws.length : Int) from by
      push_cast [List.length_append]; ring]
    exact hst.trans (by simp)
  · obtain ⟨f₂, hloop⟩ := (decode_encoded (pysizeL ws)).2 ws le_rfl hsplit.2 (toReplyL vs) []
      (some (.arrayT (ws.length : Int) (toReplyL vs) none)) none
      (decide ((⟨multibulk_join ws ++ [], some (.arrayT (ws.length : Int) (toReplyL vs) none)⟩
          : RedisParser)._current = some (.arrayT (ws.length : Int) (toReplyL vs) none)))
    rw [List.append_nil] at hloop
    refine Computes.of_get (f₂ + 3) ?_ (by simp)
    rw [RedisParser.get]
    show RedisParser.resume (f₂ + 2)
      ⟨multibulk_join ws, some (.arrayT (ws.length : Int) (toReplyL vs) none)⟩
      (.arrayT (ws.length : Int) (toReplyL vs) none) none = _
    rw [RedisParser.resume]
    have hdec : Task._decode (f₂ + 1)
        ⟨multibulk_join ws, some (.arrayT (ws.length : Int) (toReplyL vs) none)⟩
        (.arrayT (ws.length : Int) (toReplyL vs) none) none
        = .out (some (.array (toReplyL vs ++ toReplyL ws))) ⟨[], none⟩ := by
      rw [Task._decode]
      rw [if_neg (by omega : ¬ ((ws.length : Nat) : Int) = -1)]
      exact hloop
    simp [hdec, Task.next, toReplyL_append]

/-- Witness for C2 (Scenario 5): feeding `"*2\r\n$3\r\nfoo\r\n"` gives
Incomplete with the pending aggregate holding `["foo"]` and one element
missing; feeding `"$3\r\nbar\r\n"` then gives `Array(["foo","bar"])`. -/
theorem claim2_witness :
    ([.pybytes ['b', 'a', 'r']] : List PyVal) ≠ [] ∧
    sizedL ([.pybytes ['f', 'o', 'o']] ++ [.pybytes ['b', 'a', 'r']]) = true ∧
    (([.pybytes ['f', 'o', 'o']] ++ [.pybytes ['b', 'a', 'r']] : List PyVal)).length < 2 ^ 31 ∧
    (Computes ⟨"*2\r\n$3\r\nfoo\r\n".toList, none⟩
        (.out none ⟨[], some (.arrayT 1 [.bulk ['f', 'o', 'o']] none)⟩) ∧
      Computes ((⟨[], some (.arrayT 1 [.bulk ['f', 'o', 'o']] none)⟩ : RedisParser).feed
          "$3\r\nbar\r\n".toList)
        (.out (some (.array [.bulk ['f', 'o', 'o'], .bulk ['b', 'a', 'r']])) ⟨[], none⟩)) :=
  ⟨by simp, by decide, by decide,
    claim2_suspend_resume [.pybytes ['f', 'o', 'o']] [.pybytes ['b', 'a', 'r']]
      (by simp) (by decide) (by decide)⟩

/-! ### C1 machinery: parsing well-formed single-level units -/

theorem wf_line_no_cr {t : List Char} (h : t.all (· != '\r') = true) :
    ∀ c ∈ t, c ≠ '\r' := by
  intro c hc
  have := List.all_eq_true.mp h c hc
  simpa using this

/-- Every strict prefix of a CR-free line followed by CRLF contains no
CRLF pair. -/
theorem findCRLF_prefix_line : ∀ {w q r : List Char}, (∀ c ∈ w, c ≠ '\r') →
    q ++ r = w ++ CRLF → r ≠ [] → findCRLF q = none := by
  intro w
  induction w with
  | nil =>
    intro q r _ h hr
    cases q with
    | nil => rfl
    | cons a q' =>
      cases q' with
      | nil => rfl
      | cons b q'' =>
        simp only [List.nil_append, CRLF, List.cons_append] at h
        injection h with h1 h2
        injection h2 with h3 h4
        exact absurd (List.append_eq_nil.mp h4).2 hr
  | cons x w' IH =>
    intro q r hw h hr
    cases q with
    | nil => rfl
    | cons a q' =>
      simp only [List.cons_append, CRLF] at h
      injection h with h1 h2
      have hx : a ≠ '\r' := by rw [h1]; exact hw x (by simp)
      rw [findCRLF_cons_ne q' hx,
        IH (fun c hc => hw c (by simp [hc])) (by simpa [CRLF] using h2) hr]
      rfl

theorem SCut.r_ne {e q r ctx st} (h : SCut e q r ctx st) : r ≠ [] := by
  cases h with
  | line ctx h1 h2 h3 => exact h2
  | payload ctx h1 h2 => exact h2

theorem UCut.s_ne {u p s st} (h : UCut u p s st) : s ≠ [] := by
  cases h with
  | scalar hs => exact fun hc => hs.r_ne hc
  | header h1 h2 h3 => exact fun hc => h2 (List.append_eq_nil.mp hc).1
  | elems hs => exact fun hc => hs.r_ne (List.append_eq_nil.mp hc).1

/-- One `_get` over a complete well-formed scalar with any continuation:
the scalar's reply is produced; `_current` is untouched by the line
scalars and nulled by bulk and nil. -/
theorem sget (e : SUnit) (he : wfS e = true) (rest : List Char) (cur nxt : Option Task) :
    ∃ f cur', (cur' = cur ∨ cur' = none) ∧
      RedisParser._get f ⟨encS e ++ rest, cur⟩ nxt = .out (some (replyS e)) ⟨rest, cur'⟩ := by
  cases e with
  | ustatus t =>
    refine ⟨0 + 1, cur, Or.inl rfl, ?_⟩
    have hn : findCRLF ('+' :: t) = none := by
      rw [findCRLF_cons_ne t (by decide),
        findCRLF_none_of_no_cr (wf_line_no_cr (by simpa [wfS] using he))]
      rfl
    rw [show (⟨encS (.ustatus t) ++ rest, cur⟩ : RedisParser)
        = ⟨('+' :: t) ++ '\r' :: '\n' :: rest, cur⟩ from by simp [encS, CRLF]]
    rw [_get_line '+' t rest cur nxt hn]
    simp [replyS]
  | uerror t =>
    refine ⟨0 + 1, cur, Or.inl rfl, ?_⟩
    have hn : findCRLF ('-' :: t) = none := by
      rw [findCRLF_cons_ne t (by decide),
        findCRLF_none_of_no_cr (wf_line_no_cr (by simpa [wfS] using he))]
      rfl
    rw [show (⟨encS (.uerror t) ++ rest, cur⟩ : RedisParser)
        = ⟨('-' :: t) ++ '\r' :: '\n' :: rest, cur⟩ from by simp [encS, CRLF]]
    rw [_get_line '-' t rest cur nxt hn]
    simp [replyS]
  | uint t =>
    refine ⟨0 + 1, cur, Or.inl rfl, ?_⟩
    have hn : findCRLF (':' :: t) = none := by
      rw [findCRLF_cons_ne t (by decide),
        findCRLF_none_of_no_cr (wf_line_no_cr (by simpa [wfS] using he))]
      rfl
    rw [show (⟨encS (.uint t) ++ rest, cur⟩ : RedisParser)
        = ⟨(':' :: t) ++ '\r' :: '\n' :: rest, cur⟩ from by simp [encS, CRLF]]
    rw [_get_line ':' t rest cur nxt hn]
    simp [replyS]
  | ubulk p =>
    have hp : p.length < 2 ^ 31 := by simpa [wfS] using he
    exact ⟨0 + 3, none, Or.inr rfl, _get_obj_bulk 0 p rest cur nxt hp⟩
  | unil =>
    exact ⟨0 + 3, none, Or.inr rfl, _get_nil 0 rest cur nxt⟩

/-- The element loop over a complete run of well-formed scalar
encodings: all elements are accumulated and the array completes. -/
theorem sloop_complete : ∀ (es : List SUnit), (∀ e ∈ es, wfS e = true) →
    ∀ (rest : List Char) (acc : List RValue) (cur nx : Option Task) (sc : Bool), ∃ f,
      Task.decodeLoop f ⟨(es.map encS).flatten ++ rest, cur⟩ (es.length : Int) acc nx sc =
        .out (some (.array (acc ++ es.map replyS))) ⟨rest, none⟩ := by
  intro es
  induction es with
  | nil =>
    intro _ rest acc cur nx sc
    refine ⟨0 + 1, ?_⟩
    rw [Task.decodeLoop, if_neg (by simp)]
    simp [Task.arrayFinish]
  | cons e es IH =>
    intro hw rest acc cur nx sc
    obtain ⟨f₁, cur', hcur', helem⟩ := sget e (hw e (by simp)) ((es.map encS).flatten ++ rest)
      cur (some (.arrayT ((e :: es).length : Int) acc nx))
    obtain ⟨f₂, hrest⟩ := IH (fun x hx => hw x (by simp [hx])) rest (acc ++ [replyS e]) cur' nx
      (sc && decide ((⟨(es.map encS).flatten ++ rest, cur'⟩ : RedisParser)._current
        = (⟨((e :: es).map encS).flatten ++ rest, cur⟩ : RedisParser)._current))
    refine ⟨max f₁ f₂ + 1, ?_⟩
    rw [Task.decodeLoop, if_pos (by simp)]
    rw [show RedisParser._get (max f₁ f₂)
          (⟨((e :: es).map encS).flatten ++ rest, cur⟩ : RedisParser)
          (some (.arrayT ((e :: es).length : Int) acc nx))
        = .out (some (replyS e)) ⟨(es.map encS).flatten ++ rest, cur'⟩ from by
      rw [show (⟨((e :: es).map encS).flatten ++ rest, cur⟩ : RedisParser)
          = ⟨encS e ++ ((es.map encS).flatten ++ rest), cur⟩ from by simp,
        _get_mono (le_max_left f₁ f₂) (by rw [helem]; simp), helem]]
    show Task.decodeLoop (max f₁ f₂) ⟨(es.map encS).flatten ++ rest, cur'⟩
      (((e :: es).length : Int) - 1) (acc ++ [replyS e]) nx _ = _
    rw [show (((e :: es).length : Int) - 1) = (es.length : Int) from by
      simp [List.length_cons]]
    rw [decodeLoop_mono (le_max_right f₁ f₂) (by rw [hrest]; simp)]
    exact hrest.trans (by simp)

/-- One `_get` over a complete well-formed top-level unit from an idle
parser: the unit's reply is produced and `_current` is null. -/
theorem uget (u : RUnit) (hu : wfU u = true) (rest : List Char) (nxt : Option Task) :
    ∃ f, RedisParser._get f ⟨encU u ++ rest, none⟩ nxt =
      .out (some (replyU u)) ⟨rest, none⟩ := by
  cases u with
  | scalar e =>
    obtain ⟨f, cur', hcur', h⟩ := sget e (by simpa [wfU] using hu) rest none nxt
    refine ⟨f, ?_⟩
    rcases hcur' with h' | h' <;> rw [h'] at h <;> exact h
  | uarray es =>
    have hsz : es.length < 2 ^ 31 ∧ ∀ e ∈ es, wfS e = true := by
      have := hu
      simp [wfU, Bool.and_eq_true, List.all_eq_true] at this
      exact this
    obtain ⟨f₂, hloop⟩ := sloop_complete es hsz.2 rest [] none nxt
      (decide ((⟨(es.map encS).flatten ++ rest, none⟩ : RedisParser)._current
        = some (.arrayT (es.length : Int) [] nxt)))
    refine ⟨f₂ + 3, ?_⟩
    rw [show (⟨encU (.uarray es) ++ rest, none⟩ : RedisParser)
        = ⟨('*' :: natRepr es.length) ++ '\r' :: '\n' :: ((es.map encS).flatten ++ rest), none⟩
      from by simp [encU, CRLF]]
    show RedisParser._get ((f₂ + 2) + 1) _ _ = _
    rw [_get_line '*' (natRepr es.length) _ none nxt
      (by rw [findCRLF_cons_ne _ (by decide), findCRLF_digits (natRepr_digits _)]; rfl)]
    rw [if_neg (by decide), if_neg (by decide), if_neg (by decide),
      if_neg (by decide), if_pos rfl]
    rw [atoi_natRepr hsz.1]
    show RedisParser.decode ((f₂ + 1) + 1) _ _ = _
    rw [RedisParser.decode]
    show Task._decode (f₂ + 1) _ _ _ = _
    rw [Task._decode]
    rw [if_neg (by omega : ¬ ((es.length : Nat) : Int) = -1)]
    exact hloop.trans (by simp [replyU])

theorem encS_ne_nil (e : SUnit) : encS e ≠ [] := by
  cases e <;> simp [encS, obj_bulk, NIL, CRLF]

theorem flatten_encS_eq_nil {es : List SUnit} (h : (es.map encS).flatten = []) :
    es = [] := by
  cases es with
  | nil => rfl
  | cons e es =>
    have h' : encS e ++ (es.map encS).flatten = [] := by simpa using h
    exact absurd (List.append_eq_nil.mp h').1 (encS_ne_nil e)

/-- Every split of a scalar encoding with a nonempty remainder is a cut:
inside the header line, or (for a bulk) past the header inside the
payload region. -/
theorem scut_exists {e : SUnit} (he : wfS e = true) {q r : List Char}
    (hqr : encS e = q ++ r) (hr : r ≠ []) (ctx : Option Task) :
    ∃ st, SCut e q r ctx st := by
  cases e with
  | ustatus t =>
    refine ⟨_, SCut.line ctx hqr hr (@findCRLF_prefix_line ('+' :: t) q r ?_ ?_ hr)⟩
    · intro c hc
      rcases List.mem_cons.mp hc with h | h
      · rw [h]; decide
      · exact wf_line_no_cr (by simpa [wfS] using he) c h
    · rw [← hqr]; simp [encS]
  | uerror t =>
    refine ⟨_, SCut.line ctx hqr hr (@findCRLF_prefix_line ('-' :: t) q r ?_ ?_ hr)⟩
    · intro c hc
      rcases List.mem_cons.mp hc with h | h
      · rw [h]; decide
      · exact wf_line_no_cr (by simpa [wfS] using he) c h
    · rw [← hqr]; simp [encS]
  | uint t =>
    refine ⟨_, SCut.line ctx hqr hr (@findCRLF_prefix_line (':' :: t) q r ?_ ?_ hr)⟩
    · intro c hc
      rcases List.mem_cons.mp hc with h | h
      · rw [h]; decide
      · exact wf_line_no_cr (by simpa [wfS] using he) c h
    · rw [← hqr]; simp [encS]
  | unil =>
    refine ⟨_, SCut.line ctx hqr hr
      (@findCRLF_prefix_line ['$', '-', '1'] q r (by decide) ?_ hr)⟩
    rw [← hqr]
    decide
  | ubulk b =>
    have h' : q ++ r = ('$' :: natRepr b.length ++ CRLF) ++ (b ++ CRLF) := by
      rw [← hqr]; simp [encS, obj_bulk]
    rcases List.append_eq_append_iff.mp h' with ⟨m, hm1, hm2⟩ | ⟨m, hm1, hm2⟩
    · cases m with
      | nil =>
        have hq : q = '$' :: natRepr b.length ++ CRLF ++ ([] : List Char) := by
          simpa using hm1.symm
        rw [hq]
        have hr2 : r = b ++ CRLF := by simpa using hm2
        exact ⟨_, SCut.payload ctx (by simp [hr2]) hr⟩
      | cons mh mt =>
        refine ⟨_, SCut.line ctx hqr hr
          (@findCRLF_prefix_line ('$' :: natRepr b.length) q (mh :: mt) ?_ ?_ (by simp))⟩
        · intro c hc
          rcases List.mem_cons.mp hc with h | h
          · rw [h]; decide
          · exact isDigit_ne_cr (natRepr_digits _ c h)
        · rw [← hm1]
    · have hq : q = '$' :: natRepr b.length ++ CRLF ++ m := by simpa using hm1
      rw [hq]
      exact ⟨_, SCut.payload ctx hm2.symm hr⟩

/-- A split of a run of scalar encodings with a nonempty remainder lands
inside (or at the start of) one of the scalars. -/
theorem elems_decompose : ∀ (es : List SUnit) (d s' : List Char),
    (es.map encS).flatten = d ++ s' → s' ≠ [] →
    ∃ (es₁ : List SUnit) (e : SUnit) (es₂ : List SUnit) (q r : List Char),
      es = es₁ ++ e :: es₂ ∧ d = (es₁.map encS).flatten ++ q ∧
      encS e = q ++ r ∧ r ≠ [] ∧ s' = r ++ (es₂.map encS).flatten := by
  intro es
  induction es with
  | nil =>
    intro d s' h hs
    simp at h
    exact absurd h.2 hs
  | cons e es IH =>
    intro d s' h hs
    have h' : d ++ s' = encS e ++ (es.map encS).flatten := by
      rw [← h]; simp
    rcases List.append_eq_append_iff.mp h' with ⟨m, hm1, hm2⟩ | ⟨m, hm1, hm2⟩
    · cases m with
      | nil =>
        -- d = encS e exactly: recurse at the element boundary
        have hd : d = encS e := by simpa using hm1.symm
        have hfl : (es.map encS).flatten = [] ++ s' := by simpa using hm2.symm
        obtain ⟨es₁', e', es₂', q, r, h1, h2, h3, h4, h5⟩ := IH [] s' hfl hs
        have hes₁ : es₁' = [] := flatten_encS_eq_nil (List.append_eq_nil.mp h2.symm).1
        have hq : q = [] := (List.append_eq_nil.mp h2.symm).2
        subst hes₁ hq
        refine ⟨[e], e', es₂', [], r, ?_, ?_, by simpa using h3, h4, by simpa using h5⟩
        · simpa using h1
        · simp [hd]
      | cons mh mt =>
        exact ⟨[], e, es, d, mh :: mt, rfl, by simp, hm1, by simp, hm2⟩
    · obtain ⟨es₁', e', es₂', q, r, h1, h2, h3, h4, h5⟩ := IH m s' hm2 hs
      refine ⟨e :: es₁', e', es₂', q, r, by rw [h1]; rfl, ?_, h3, h4, h5⟩
      rw [hm1, h2]
      simp

theorem get_resume {f : Nat} {st : RedisParser} {t : Task} (h : st._current = some t) :
    RedisParser.get (f + 1) st = RedisParser.resume f st t none := by
  rw [RedisParser.get]
  simp only [h]

theorem get_dispatch {f : Nat} {st : RedisParser} (h : st._current = none) :
    RedisParser.get (f + 1) st = RedisParser._get f st none := by
  rw [RedisParser.get]
  simp only [h]

/-- The zero cut: a fresh parser has consumed nothing of the unit. -/
theorem ucut_zero (u : RUnit) : UCut u [] (encU u) initParser := by
  cases u with
  | scalar e =>
    exact UCut.scalar (SCut.line none (by simp [encU]) (encS_ne_nil e) rfl)
  | uarray es =>
    rw [show encU (.uarray es) = ('*' :: natRepr es.length ++ CRLF) ++ (es.map encS).flatten
      from by simp [encU]]
    exact UCut.header (by simp) (by simp [CRLF]) rfl

theorem posp_boundary (us : List RUnit) : PosP initParser (encUs us) us := by
  cases us with
  | nil => exact Or.inl ⟨rfl, rfl, rfl⟩
  | cons u us₀ =>
    refine Or.inr ⟨u, us₀, [], encU u, rfl, ucut_zero u, ?_⟩
    simp [encUs]

/-- Completing a cut unit: once the unit's remaining bytes (plus
anything further) are fed, one `getReply` emits the unit's reply and
leaves the surplus buffered with no pending task. -/
theorem ucut_complete {u : RUnit} {p s : List Char} {st : RedisParser}
    (hu : wfU u = true) (hcut : UCut u p s st) (extra : List Char) :
    Computes (st.feed (s ++ extra)) (.out (some (replyU u)) ⟨extra, none⟩) := by
  cases hcut with
  | @scalar e q r st hs =>
    cases hs with
    | line ctx h1 h2 h3 =>
      -- variables: e, p (consumed piece), s (rest of the scalar)
      obtain ⟨f, cur', hcur', h⟩ := sget e (by simpa [wfU] using hu) extra none none
      refine Computes.of_get (f + 1) ?_ (by simp)
      rw [get_dispatch rfl]
      have hbuf : p ++ (s ++ extra) = encS e ++ extra := by
        rw [show p ++ (s ++ extra) = (p ++ s) ++ extra from (List.append_assoc _ _ _).symm,
          ← h1]
      rw [show ((⟨p, none⟩ : RedisParser).feed (s ++ extra))
          = (⟨encS e ++ extra, none⟩ : RedisParser)
        from congrArg (fun b => (⟨b, none⟩ : RedisParser)) hbuf]
      rcases hcur' with hc | hc <;> rw [hc] at h <;> exact h
    | @payload b q₂ r' ctx h1 h2 =>
      -- variables: b, q₂ (buffered payload piece), s (rest of payload + CRLF)
      have hp : b.length < 2 ^ 31 := by simpa [wfU, wfS] using hu
      refine Computes.of_get (0 + 1 + 1 + 1) ?_ (by simp)
      rw [get_resume rfl]
      have hbuf : q₂ ++ (s ++ extra) = b ++ '\r' :: '\n' :: extra := by
        rw [show q₂ ++ (s ++ extra) = (q₂ ++ s) ++ extra from (List.append_assoc _ _ _).symm,
          h1]
        simp [CRLF]
      rw [show ((⟨q₂, some (.stringT (b.length : Int) none)⟩ : RedisParser).feed (s ++ extra))
          = (⟨b ++ '\r' :: '\n' :: extra, some (.stringT (b.length : Int) none)⟩ : RedisParser)
        from congrArg (fun x => (⟨x, some (.stringT (b.length : Int) none)⟩ : RedisParser)) hbuf]
      rw [RedisParser.resume]
      have hdec : Task._decode (0 + 1)
          (⟨b ++ '\r' :: '\n' :: extra, some (.stringT (b.length : Int) none)⟩ : RedisParser)
          (.stringT (b.length : Int) none) none = .out (some (.bulk b)) ⟨extra, none⟩ :=
        _decode_string_take b '\r' '\n' extra (by omega)
      simp only [hdec, Task.next]
      rfl
  | @header es p' sH h1 h2 h3 =>
    obtain ⟨f, h⟩ := uget (.uarray es) hu extra none
    refine Computes.of_get (f + 1) ?_ (by simp)
    rw [get_dispatch rfl]
    have hbuf : p ++ ((sH ++ (es.map encS).flatten) ++ extra)
        = encU (.uarray es) ++ extra := by
      rw [show encU (.uarray es)
          = ('*' :: natRepr es.length ++ CRLF) ++ (es.map encS).flatten from by simp [encU],
        h1]
      simp
    rw [show ((⟨p, none⟩ : RedisParser).feed ((sH ++ (es.map encS).flatten) ++ extra))
        = (⟨encU (.uarray es) ++ extra, none⟩ : RedisParser)
      from congrArg (fun b => (⟨b, none⟩ : RedisParser)) hbuf]
    exact h
  | @elems es₁ e es₂ q r st hs =>
    have hsz : (es₁ ++ e :: es₂).length < 2 ^ 31 ∧ ∀ x ∈ es₁ ++ e :: es₂, wfS x = true := by
      have h := hu
      simp only [wfU, Bool.and_eq_true, decide_eq_true_eq, List.all_eq_true] at h
      exact h
    cases hs with
    | line ctx h1 h2 h3 =>
      obtain ⟨f₂, hloop⟩ := sloop_complete (e :: es₂)
        (fun x hx => hsz.2 x (by simp at hx ⊢; tauto)) extra (es₁.map replyS)
        (some (.arrayT (((e :: es₂).length : Int)) (es₁.map replyS) none)) none
        (decide ((⟨((e :: es₂).map encS).flatten ++ extra,
            some (.arrayT (((e :: es₂).length : Int)) (es₁.map replyS) none)⟩
          : RedisParser)._current
          = some (.arrayT (((e :: es₂).length : Int)) (es₁.map replyS) none)))
      refine Computes.of_get (f₂ + 3) ?_ (by simp)
      rw [get_resume rfl]
      have hbuf : q ++ ((r ++ (es₂.map encS).flatten) ++ extra)
          = ((e :: es₂).map encS).flatten ++ extra := by
        rw [show q ++ ((r ++ (es₂.map encS).flatten) ++ extra)
            = (q ++ r) ++ ((es₂.map encS).flatten ++ extra) from by simp, ← h1]
        simp
      rw [show ((⟨q, some (.arrayT ((es₂.length : Int) + 1) (es₁.map replyS) none)⟩
            : RedisParser).feed ((r ++ (es₂.map encS).flatten) ++ extra))
          = (⟨((e :: es₂).map encS).flatten ++ extra,
              some (.arrayT ((es₂.length : Int) + 1) (es₁.map replyS) none)⟩ : RedisParser)
        from congrArg
          (fun b => (⟨b, some (.arrayT ((es₂.length : Int) + 1) (es₁.map replyS) none)⟩
            : RedisParser)) hbuf]
      rw [show ((es₂.length : Int) + 1) = ((e :: es₂).length : Int) from by
        simp [List.length_cons]]
      rw [RedisParser.resume]
      have hdec : Task._decode (f₂ + 1)
          (⟨((e :: es₂).map encS).flatten ++ extra,
            some (.arrayT (((e :: es₂).length : Int)) (es₁.map replyS) none)⟩ : RedisParser)
          (.arrayT (((e :: es₂).length : Int)) (es₁.map replyS) none) none
          = .out (some (.array ((es₁ ++ e :: es₂).map replyS))) ⟨extra, none⟩ := by
        rw [Task._decode]
        rw [if_neg (by omega : ¬ (((e :: es₂).length : Nat) : Int) = -1)]
        exact hloop.trans (by simp)
      simp only [hdec, Task.next]
      rfl
    | @payload b q₂ r' ctx h1 h2 =>
      have hp : b.length < 2 ^ 31 := by
        have := hsz.2 (.ubulk b) (by simp)
        simpa [wfS] using this
      obtain ⟨f₂, hloop⟩ := sloop_complete es₂
        (fun x hx => hsz.2 x (by simp [hx])) extra (es₁.map replyS ++ [.bulk b])
        none none
        (decide ((⟨(es₂.map encS).flatten ++ extra, none⟩ : RedisParser)._current
          = some (.arrayT (es₂.length : Int) (es₁.map replyS ++ [.bulk b]) none)))
      refine Computes.of_get (f₂ + 4) ?_ (by simp)
      rw [get_resume rfl]
      have hbuf : q₂ ++ ((r ++ (es₂.map encS).flatten) ++ extra)
          = b ++ '\r' :: '\n' :: ((es₂.map encS).flatten ++ extra) := by
        rw [show q₂ ++ ((r ++ (es₂.map encS).flatten) ++ extra)
            = (q₂ ++ r) ++ ((es₂.map encS).flatten ++ extra) from by simp, h1]
        simp [CRLF]
      rw [show ((⟨q₂, some (.stringT (b.length : Int)
              (some (.arrayT ((es₂.length : Int) + 1) (es₁.map replyS) none)))⟩
            : RedisParser).feed ((r ++ (es₂.map encS).flatten) ++ extra))
          = (⟨b ++ '\r' :: '\n' :: ((es₂.map encS).flatten ++ extra),
              some (.stringT (b.length : Int)
                (some (.arrayT ((es₂.length : Int) + 1) (es₁.map replyS) none)))⟩ : RedisParser)
        from congrArg
          (fun x => (⟨x, some (.stringT (b.length : Int)
            (some (.arrayT ((es₂.length : Int) + 1) (es₁.map replyS) none)))⟩ : RedisParser))
          hbuf]
      rw [RedisParser.resume]
      have hdec1 : Task._decode (f₂ + 2)
          (⟨b ++ '\r' :: '\n' :: ((es₂.map encS).flatten ++ extra),
            some (.stringT (b.length : Int)
              (some (.arrayT ((es₂.length : Int) + 1) (es₁.map replyS) none)))⟩ : RedisParser)
          (.stringT (b.length : Int)
            (some (.arrayT ((es₂.length : Int) + 1) (es₁.map replyS) none))) none
          = .out (some (.bulk b)) ⟨(es₂.map encS).flatten ++ extra, none⟩ :=
        _decode_string_take b '\r' '\n' ((es₂.map encS).flatten ++ extra) (by omega)
      simp only [hdec1, Task.next]
      rw [RedisParser.resume]
      have hdec2 : Task._decode (f₂ + 1)
          (⟨(es₂.map encS).flatten ++ extra, none⟩ : RedisParser)
          (.arrayT ((es₂.length : Int) + 1) (es₁.map replyS) none) (some (.bulk b))
          = .out (some (.array ((es₁ ++ .ubulk b :: es₂).map replyS))) ⟨extra, none⟩ := by
        rw [Task._decode]
        rw [if_neg (by omega : ¬ ((es₂.length : Int) + 1) = -1)]
        show Task.decodeLoop f₂ _ (((es₂.length : Int) + 1) - 1)
          (es₁.map replyS ++ [.bulk b]) none _ = _
        rw [show (((es₂.length : Int) + 1) - 1) = (es₂.length : Int) from by ring]
        exact hloop.trans (by simp [replyS])
      simp only [hdec2, Task.next]
      rfl

/-- The loop tail when `_get` finds no complete line: the state is
unchanged, and with the entry invariant (idle, or resuming the aggregate
itself) the updated aggregate is stored as `_current`. -/
theorem stall_line {st : RedisParser} {L : Int} {a : List RValue} {sc : Bool}
    (hL : ¬ L = 0)
    (hinv : st._current = none ∨ (sc = true ∧ ∃ L' A', st._current = some (.arrayT L' A' none))) :
    Task.arrayFinish st L a none (sc && decide (st._current = st._current))
      = .out none { st with _current := some (.arrayT L a none) } := by
  unfold Task.arrayFinish
  rw [if_neg hL]
  rcases hinv with hc | ⟨hsc, L', A', hc⟩
  · simp only [hc]
  · rw [hsc]
    simp only [hc]
    rw [if_pos (by simp)]

/-- The loop tail when a child `StringTask` has registered itself: the
aliasing flag is necessarily off, so the stalled state is kept. -/
theorem stall_keep {st st' : RedisParser} {L : Int} {a : List RValue} {sc : Bool}
    {m : Int} {nxt : Option Task}
    (hL : ¬ L = 0) (hc' : st'._current = some (.stringT m nxt))
    (hinv : st._current = none ∨ (sc = true ∧ ∃ L' A', st._current = some (.arrayT L' A' none))) :
    Task.arrayFinish st' L a none (sc && decide (st'._current = st._current))
      = .out none st' := by
  unfold Task.arrayFinish
  rw [if_neg hL]
  have hflag : (sc && decide (st'._current = st._current)) = false := by
    rcases hinv with hc | ⟨hsc, L', A', hc⟩
    · rw [hc, hc']
      simp
    · rw [hc, hc']
      simp
  rw [hflag]
  simp only [hc']
  simp

/-- The element loop when only part of the current element's bytes are
buffered: the complete elements `es₁` are consumed and the loop stalls
at the cut of element `e`, leaving the state the cut prescribes. -/
theorem sloop_partial : ∀ (es₁ : List SUnit), (∀ x ∈ es₁, wfS x = true) →
    ∀ (e : SUnit), wfS e = true → ∀ (es₂ : List SUnit) (q r : List Char) (acc : List RValue)
      (cur : Option Task) (sc : Bool) (stc : RedisParser),
    SCut e q r (some (.arrayT ((es₂.length : Int) + 1) (acc ++ es₁.map replyS) none)) stc →
    (cur = none ∨ (sc = true ∧ ∃ L' A', cur = some (.arrayT L' A' none))) →
    ∃ f, Task.decodeLoop f ⟨(es₁.map encS).flatten ++ q, cur⟩
        (((es₁ ++ e :: es₂).length : Int)) acc none sc = .out none stc := by
  intro es₁
  induction es₁ with
  | nil =>
    intro _ e he es₂ q r acc cur sc stc hscut hinv
    have hL : ¬ ((es₂.length : Int) + 1) = 0 := by omega
    cases hscut with
    | line ctx h1 h2 h3 =>
      refine ⟨0 + 1 + 1, ?_⟩
      rw [show (((([] : List SUnit) ++ e :: es₂).length : Int)) = (es₂.length : Int) + 1
        from by simp]
      rw [show ((List.map encS ([] : List SUnit)).flatten ++ q) = q from by simp]
      rw [Task.decodeLoop, if_pos (by omega)]
      rw [@_get_no_crlf 0 ⟨q, cur⟩ (some (.arrayT ((es₂.length : Int) + 1) acc none)) h3]
      show Task.arrayFinish ⟨q, cur⟩ ((es₂.length : Int) + 1) acc none _ = _
      exact (stall_line hL hinv).trans (by simp)
    | @payload b q₂ r' ctx h1 h2 =>
      have hb : b.length < 2 ^ 31 := by simpa [wfS] using he
      refine ⟨0 + 4, ?_⟩
      rw [show (((([] : List SUnit) ++ .ubulk b :: es₂).length : Int)) = (es₂.length : Int) + 1
        from by simp]
      rw [show ((List.map encS ([] : List SUnit)).flatten
            ++ ('$' :: natRepr b.length ++ CRLF ++ q₂))
          = ('$' :: natRepr b.length) ++ '\r' :: '\n' :: q₂ from by simp [CRLF]]
      rw [Task.decodeLoop, if_pos (by omega)]
      rw [_get_line '$' (natRepr b.length) q₂ cur (some (.arrayT ((es₂.length : Int) + 1) acc none))
        (by rw [findCRLF_cons_ne _ (by decide), findCRLF_digits (natRepr_digits _)]; rfl)]
      rw [if_neg (by decide), if_neg (by decide), if_neg (by decide), if_pos rfl]
      rw [atoi_natRepr hb]
      have hdec : RedisParser.decode (0 + 2) ⟨q₂, cur⟩
          (.stringT (b.length : Int) (some (.arrayT ((es₂.length : Int) + 1) acc none)))
          = .out none ⟨q₂, some (.stringT (b.length : Int)
              (some (.arrayT ((es₂.length : Int) + 1) acc none)))⟩ := by
        rw [RedisParser.decode]
        have hq₂ : q₂.length + 2 ≤ b.length + 1 + 2 := by
          have : q₂.length ≤ b.length + 1 := by
            have := congrArg List.length h1
            simp [CRLF] at this
            have hr : 0 < r.length := List.length_pos.mpr h2
            omega
          omega
        rw [_decode_string_stall (by omega) (by
          rw [show ((b.length : Int) + 2) % 2 ^ 64 = (b.length : Int) + 2 from
            Int.emod_eq_of_lt (by omega) (by omega)]
          simp only [not_le]
          have : ((⟨q₂, cur⟩ : RedisParser).buffer).length = q₂.length := rfl
          rw [this]
          omega)]
      simp only [hdec]
      show Task.arrayFinish ⟨q₂, some (.stringT (b.length : Int)
          (some (.arrayT ((es₂.length : Int) + 1) acc none)))⟩
        ((es₂.length : Int) + 1) acc none _ = _
      exact (@stall_keep ⟨q₂, cur⟩
        ⟨q₂, some (.stringT (b.length : Int) (some (.arrayT ((es₂.length : Int) + 1) acc none)))⟩
        ((es₂.length : Int) + 1) acc sc (b.length : Int)
        (some (.arrayT ((es₂.length : Int) + 1) acc none)) hL rfl hinv).trans (by simp)
  | cons x es₁' IH =>
    intro hw e he es₂ q r acc cur sc stc hscut hinv
    obtain ⟨f₁, cur', hcur', helem⟩ := sget x (hw x (by simp)) ((es₁'.map encS).flatten ++ q)
      cur (some (.arrayT ((((x :: es₁') ++ e :: es₂).length : Int)) acc none))
    rw [show acc ++ (x :: es₁').map replyS = (acc ++ [replyS x]) ++ es₁'.map replyS
      from by simp] at hscut
    have hinv' : cur' = none ∨ ((sc && decide
          ((⟨(es₁'.map encS).flatten ++ q, cur'⟩ : RedisParser)._current
            = (⟨((x :: es₁').map encS).flatten ++ q, cur⟩ : RedisParser)._current)) = true
        ∧ ∃ L' A', cur' = some (.arrayT L' A' none)) := by
      rcases hcur' with h | h
      · subst h
        rcases hinv with h2 | ⟨hsc, L', A', h2⟩
        · exact Or.inl h2
        · exact Or.inr ⟨by simp [hsc], L', A', h2⟩
      · exact Or.inl h
    obtain ⟨f₂, hrest⟩ := IH (fun y hy => hw y (by simp [hy])) e he es₂ q r
      (acc ++ [replyS x]) cur'
      (sc && decide ((⟨(es₁'.map encS).flatten ++ q, cur'⟩ : RedisParser)._current
        = (⟨((x :: es₁').map encS).flatten ++ q, cur⟩ : RedisParser)._current))
      stc hscut hinv'
    refine ⟨max f₁ f₂ + 1, ?_⟩
    rw [Task.decodeLoop, if_pos (by push_cast [List.length_append, List.length_cons]; omega)]
    rw [show RedisParser._get (max f₁ f₂)
          (⟨((x :: es₁').map encS).flatten ++ q, cur⟩ : RedisParser)
          (some (.arrayT ((((x :: es₁') ++ e :: es₂).length : Int)) acc none))
        = .out (some (replyS x)) ⟨(es₁'.map encS).flatten ++ q, cur'⟩ from by
      rw [show (⟨((x :: es₁').map encS).flatten ++ q, cur⟩ : RedisParser)
          = ⟨encS x ++ ((es₁'.map encS).flatten ++ q), cur⟩ from by simp,
        _get_mono (le_max_left f₁ f₂) (by rw [helem]; simp), helem]]
    show Task.decodeLoop (max f₁ f₂) ⟨(es₁'.map encS).flatten ++ q, cur'⟩
      (((((x :: es₁') ++ e :: es₂).length : Int)) - 1) (acc ++ [replyS x]) none _ = _
    rw [show (((((x :: es₁') ++ e :: es₂).length : Int)) - 1)
        = (((es₁' ++ e :: es₂).length : Int)) from by
      push_cast [List.length_append, List.length_cons]; ring]
    rw [decodeLoop_mono (le_max_right f₁ f₂) (by rw [hrest]; simp)]
    exact hrest

theorem payload_piece_le {q₂ r b : List Char} (h : q₂ ++ r = b ++ CRLF) (hr : r ≠ []) :
    q₂.length ≤ b.length + 1 := by
  have hl := congrArg List.length h
  simp [CRLF] at hl
  have hp := List.length_pos.mpr hr
  omega

/-- A fresh `_get` over the consumed piece of a scalar cut stalls at
exactly the cut's state. -/
theorem scut_get {e : SUnit} (he : wfS e = true) {q r : List Char} {stc : RedisParser}
    (hsc : SCut e q r none stc) :
    ∃ f, RedisParser._get f ⟨q, none⟩ none = .out none stc := by
  cases hsc with
  | line ctx h1 h2 h3 => exact ⟨0 + 1, _get_no_crlf h3⟩
  | @payload b q₂ r' ctx h1 h2 =>
    have hb : b.length < 2 ^ 31 := by simpa [wfS] using he
    refine ⟨0 + 4, ?_⟩
    rw [show (⟨'$' :: natRepr b.length ++ CRLF ++ q₂, none⟩ : RedisParser)
        = ⟨('$' :: natRepr b.length) ++ '\r' :: '\n' :: q₂, none⟩ from by simp [CRLF]]
    rw [_get_line '$' (natRepr b.length) q₂ none none
      (by rw [findCRLF_cons_ne _ (by decide), findCRLF_digits (natRepr_digits _)]; rfl)]
    rw [if_neg (by decide), if_neg (by decide), if_neg (by decide), if_pos rfl]
    rw [atoi_natRepr hb]
    rw [RedisParser.decode]
    exact _decode_string_stall (by omega) (by
      have hq : q₂.length ≤ b.length + 1 := payload_piece_le h1 h2
      rw [show ((b.length : Int) + 2) % 2 ^ 64 = (b.length : Int) + 2 from
        Int.emod_eq_of_lt (by omega) (by omega)]
      simp only [not_le]
      have hb2 : (((⟨q₂, none⟩ : RedisParser)).buffer).length = q₂.length := rfl
      rw [hb2]
      omega)

/-- `ucut_partial`, scalar case. -/
theorem ucut_partial_scalar {e : SUnit} {p s : List Char} {st : RedisParser}
    (hu : wfS e = true) (hcut : UCut (.scalar e) p s st)
    {c s' : List Char} (hsplit : s = c ++ s') (hne : s' ≠ []) :
    ∃ st', UCut (.scalar e) (p ++ c) s' st' ∧ Computes (st.feed c) (.out none st') := by
  cases hcut with
  | @scalar e' q r st hs =>
    cases hs with
    | line ctx h1 h2 h3 =>
      have hqr' : encS e = (p ++ c) ++ s' := by rw [h1, hsplit]; simp
      obtain ⟨st', hsc'⟩ := scut_exists hu hqr' hne none
      obtain ⟨f, hget⟩ := scut_get hu hsc'
      refine ⟨st', UCut.scalar hsc', ?_⟩
      refine Computes.of_get (f + 1) ?_ (by simp)
      rw [get_dispatch rfl]
      exact hget
    | @payload b q₂ r' ctx h1 h2 =>
      have hb : b.length < 2 ^ 31 := by simpa [wfS] using hu
      have h1' : (q₂ ++ c) ++ s' = b ++ CRLF := by
        rw [← h1, hsplit]
        simp
      refine ⟨⟨q₂ ++ c, some (.stringT (b.length : Int) none)⟩, ?_, ?_⟩
      · rw [show ('$' :: natRepr b.length ++ CRLF ++ q₂) ++ c
            = '$' :: natRepr b.length ++ CRLF ++ (q₂ ++ c) from by simp]
        exact UCut.scalar (SCut.payload none h1' hne)
      · refine Computes.of_get (0 + 3) ?_ (by simp)
        rw [get_resume rfl]
        rw [RedisParser.resume]
        have hdec : Task._decode (0 + 1)
            ((⟨q₂, some (.stringT (b.length : Int) none)⟩ : RedisParser).feed c)
            (.stringT (b.length : Int) none) none
            = .out none ⟨q₂ ++ c, some (.stringT (b.length : Int) none)⟩ :=
          _decode_string_stall (by omega) (by
            have hq : (q₂ ++ c).length ≤ b.length + 1 := payload_piece_le h1' hne
            rw [show ((b.length : Int) + 2) % 2 ^ 64 = (b.length : Int) + 2 from
              Int.emod_eq_of_lt (by omega) (by omega)]
            simp only [not_le]
            have hb2 : ((((⟨q₂, some (.stringT (b.length : Int) none)⟩ : RedisParser)).feed
                c).buffer).length = (q₂ ++ c).length := rfl
            rw [hb2]
            omega)
        simp only [hdec]

/-- `ucut_partial`, header-cut case: the chunk either stays inside the
array's header line or enters the element region. -/
theorem ucut_partial_header {es : List SUnit} {p sH : List Char}
    (hu : wfU (.uarray es) = true)
    (h1 : '*' :: natRepr es.length ++ CRLF = p ++ sH) (h2 : sH ≠ [])
    (h3 : findCRLF p = none)
    {c s' : List Char} (hsplit : sH ++ (es.map encS).flatten = c ++ s') (hne : s' ≠ []) :
    ∃ st', UCut (.uarray es) (p ++ c) s' st'
      ∧ Computes ((⟨p, none⟩ : RedisParser).feed c) (.out none st') := by
  have hszall : es.length < 2 ^ 31 ∧ ∀ x ∈ es, wfS x = true := by
    have h := hu
    simp only [wfU, Bool.and_eq_true, decide_eq_true_eq, List.all_eq_true] at h
    exact h
  have key : ∀ m : List Char, c = sH ++ m → (es.map encS).flatten = m ++ s' →
      ∃ st', UCut (.uarray es) (p ++ c) s' st'
        ∧ Computes ((⟨p, none⟩ : RedisParser).feed c) (.out none st') := by
    intro m hm1 hm2
    obtain ⟨es₁, e, es₂, q', r', hd1, hd2, hd3, hd4, hd5⟩ := elems_decompose es m s' hm2 hne
    rw [hd1] at h1
    have hwe : wfS e = true := hszall.2 e (by rw [hd1]; simp)
    obtain ⟨stc, hsc⟩ := scut_exists hwe hd3 hd4
      (some (.arrayT ((es₂.length : Int) + 1) (([] : List RValue) ++ es₁.map replyS) none))
    obtain ⟨fl, hloop⟩ := sloop_partial es₁
      (fun y hy => hszall.2 y (by rw [hd1]; simp [hy])) e hwe es₂ q' r' [] none
      (decide ((⟨(es₁.map encS).flatten ++ q', none⟩ : RedisParser)._current
        = some (.arrayT (((es₁ ++ e :: es₂).length : Int)) [] none)))
      stc hsc (Or.inl rfl)
    refine ⟨stc, ?_, ?_⟩
    · rw [hd5, hd1]
      rw [show p ++ c
          = ('*' :: natRepr (es₁ ++ e :: es₂).length ++ CRLF) ++ ((es₁.map encS).flatten ++ q')
        from by
        rw [hm1, hd2, show p ++ (sH ++ ((es₁.map encS).flatten ++ q'))
            = (p ++ sH) ++ ((es₁.map encS).flatten ++ q') from by simp, ← h1]]
      exact UCut.elems (by simpa using hsc)
    · refine Computes.of_get (fl + 4) ?_ (by simp)
      rw [get_dispatch rfl]
      rw [show ((⟨p, none⟩ : RedisParser).feed c)
          = (⟨('*' :: natRepr es.length) ++ '\r' :: '\n' :: m, none⟩ : RedisParser) from by
        have hbuf : p ++ c = ('*' :: natRepr es.length) ++ '\r' :: '\n' :: m := by
          rw [hm1, show p ++ (sH ++ m) = (p ++ sH) ++ m from by simp, ← h1, hd1]
          simp [CRLF]
        exact congrArg (fun b => (⟨b, none⟩ : RedisParser)) hbuf]
      show RedisParser._get ((fl + 2) + 1) _ _ = _
      rw [_get_line '*' (natRepr es.length) m none none
        (by rw [findCRLF_cons_ne _ (by decide), findCRLF_digits (natRepr_digits _)]; rfl)]
      rw [if_neg (by decide), if_neg (by decide), if_neg (by decide),
        if_neg (by decide), if_pos rfl]
      rw [atoi_natRepr hszall.1]
      rw [hd1, hd2]
      show RedisParser.decode ((fl + 1) + 1) _ _ = _
      rw [RedisParser.decode]
      show Task._decode (fl + 1) _ _ _ = _
      rw [Task._decode]
      rw [if_neg (by omega : ¬ (((es₁ ++ e :: es₂).length : Nat) : Int) = -1)]
      exact hloop
  rcases List.append_eq_append_iff.mp
      (show c ++ s' = sH ++ (es.map encS).flatten from hsplit.symm) with
    ⟨m, hm1, hm2⟩ | ⟨m, hm1, hm2⟩
  · cases m with
    | nil =>
      refine key [] ?_ ?_
      · have h := hm1
        simp at h
        simp [h]
      · have h := hm2
        simp at h
        simp [h]
    | cons mh mt =>
      have hh : '*' :: natRepr es.length ++ CRLF = (p ++ c) ++ (mh :: mt) := by
        rw [h1, hm1]
        simp
      refine ⟨⟨p ++ c, none⟩, ?_, ?_⟩
      · rw [hm2]
        exact UCut.header hh (by simp)
          (@findCRLF_prefix_line ('*' :: natRepr es.length) (p ++ c) (mh :: mt)
            (by
              intro x hx
              rcases List.mem_cons.mp hx with h | h
              · rw [h]; decide
              · exact isDigit_ne_cr (natRepr_digits _ x h))
            (by rw [← hh]) (by simp))
      · refine Computes.of_get (0 + 1 + 1) ?_ (by simp)
        rw [get_dispatch rfl]
        exact @_get_no_crlf 0 ((⟨p, none⟩ : RedisParser).feed c) none
          (@findCRLF_prefix_line ('*' :: natRepr es.length) (p ++ c) (mh :: mt)
            (by
              intro x hx
              rcases List.mem_cons.mp hx with h | h
              · rw [h]; decide
              · exact isDigit_ne_cr (natRepr_digits _ x h))
            (by rw [← hh]) (by simp))
  · exact key m hm1 hm2

/-- `ucut_partial`, element cut, line sub-case: resuming the aggregate
with more bytes either stays inside element `e` or completes it and
walks further elements before stalling. -/
theorem ucut_partial_elems_line {es₁ : List SUnit} {e : SUnit} {es₂ : List SUnit}
    {q r : List Char}
    (hu : wfU (.uarray (es₁ ++ e :: es₂)) = true)
    (h1 : encS e = q ++ r) (h2 : r ≠ []) (h3 : findCRLF q = none)
    {c s' : List Char} (hsplit : r ++ (es₂.map encS).flatten = c ++ s') (hne : s' ≠ []) :
    ∃ st', UCut (.uarray (es₁ ++ e :: es₂))
        ((('*' :: natRepr (es₁ ++ e :: es₂).length ++ CRLF) ++ ((es₁.map encS).flatten ++ q)) ++ c)
        s' st'
      ∧ Computes ((⟨q, some (.arrayT ((es₂.length : Int) + 1) (es₁.map replyS) none)⟩
          : RedisParser).feed c)
        (.out none st') := by
  have hszall : (es₁ ++ e :: es₂).length < 2 ^ 31 ∧ ∀ x ∈ es₁ ++ e :: es₂, wfS x = true := by
    have h := hu
    simp only [wfU, Bool.and_eq_true, decide_eq_true_eq, List.all_eq_true] at h
    exact h
  have hwe : wfS e = true := hszall.2 e (by simp)
  have key : ∀ m : List Char, c = r ++ m → (es₂.map encS).flatten = m ++ s' →
      ∃ st', UCut (.uarray (es₁ ++ e :: es₂))
          ((('*' :: natRepr (es₁ ++ e :: es₂).length ++ CRLF)
            ++ ((es₁.map encS).flatten ++ q)) ++ c) s' st'
        ∧ Computes ((⟨q, some (.arrayT ((es₂.length : Int) + 1) (es₁.map replyS) none)⟩
            : RedisParser).feed c)
          (.out none st') := by
    intro m hm1 hm2
    obtain ⟨es₂₁, e', es₂₂, q', r', hd1, hd2, hd3, hd4, hd5⟩ := elems_decompose es₂ m s' hm2 hne
    have hwe' : wfS e' = true := hszall.2 e' (by rw [hd1]; simp)
    obtain ⟨stc, hsc⟩ := scut_exists hwe' hd3 hd4
      (some (.arrayT ((es₂₂.length : Int) + 1)
        (es₁.map replyS ++ (e :: es₂₁).map replyS) none))
    obtain ⟨fl, hloop⟩ := sloop_partial (e :: es₂₁)
      (by
        intro y hy
        rcases List.mem_cons.mp hy with h | h
        · rw [h]; exact hwe
        · exact hszall.2 y (by rw [hd1]; simp [h]))
      e' hwe' es₂₂ q' r' (es₁.map replyS)
      (some (.arrayT ((((e :: es₂₁) ++ e' :: es₂₂).length : Int)) (es₁.map replyS) none))
      (decide ((⟨((e :: es₂₁).map encS).flatten ++ q',
          some (.arrayT ((((e :: es₂₁) ++ e' :: es₂₂).length : Int)) (es₁.map replyS) none)⟩
        : RedisParser)._current
        = some (.arrayT ((((e :: es₂₁) ++ e' :: es₂₂).length : Int)) (es₁.map replyS) none)))
      stc hsc
      (Or.inr ⟨by simp, _, _, rfl⟩)
    refine ⟨stc, ?_, ?_⟩
    · rw [hd5, hd1]
      rw [show es₁ ++ e :: (es₂₁ ++ e' :: es₂₂) = (es₁ ++ e :: es₂₁) ++ e' :: es₂₂
        from by simp]
      rw [show (('*' :: natRepr ((es₁ ++ e :: es₂₁) ++ e' :: es₂₂).length ++ CRLF)
            ++ ((es₁.map encS).flatten ++ q)) ++ c
          = ('*' :: natRepr ((es₁ ++ e :: es₂₁) ++ e' :: es₂₂).length ++ CRLF)
            ++ (((es₁ ++ e :: es₂₁).map encS).flatten ++ q') from by
        rw [hm1, hd2]
        simp [h1]]
      exact UCut.elems (by simpa using hsc)
    · refine Computes.of_get (fl + 3) ?_ (by simp)
      rw [get_resume rfl]
      rw [show ((⟨q, some (.arrayT ((es₂.length : Int) + 1) (es₁.map replyS) none)⟩
            : RedisParser).feed c)
          = (⟨q ++ c, some (.arrayT ((es₂.length : Int) + 1) (es₁.map replyS) none)⟩
            : RedisParser) from rfl]
      rw [RedisParser.resume]
      have hdec : Task._decode (fl + 1)
          (⟨q ++ c, some (.arrayT ((es₂.length : Int) + 1) (es₁.map replyS) none)⟩ : RedisParser)
          (.arrayT ((es₂.length : Int) + 1) (es₁.map replyS) none) none
          = .out none stc := by
        rw [Task._decode]
        rw [if_neg (by omega : ¬ ((es₂.length : Int) + 1) = -1)]
        rw [show ((es₂.length : Int) + 1) = ((((e :: es₂₁) ++ e' :: es₂₂).length : Int))
          from by rw [hd1]; push_cast [List.length_append, List.length_cons]; ring]
        rw [show (⟨q ++ c,
              some (.arrayT ((((e :: es₂₁) ++ e' :: es₂₂).length : Int)) (es₁.map replyS) none)⟩
              : RedisParser)
            = (⟨((e :: es₂₁).map encS).flatten ++ q',
                some (.arrayT ((((e :: es₂₁) ++ e' :: es₂₂).length : Int)) (es₁.map replyS) none)⟩
              : RedisParser) from by
          have hbuf : q ++ c = ((e :: es₂₁).map encS).flatten ++ q' := by
            rw [hm1, hd2, show q ++ (r ++ ((es₂₁.map encS).flatten ++ q'))
              = (q ++ r) ++ ((es₂₁.map encS).flatten ++ q') from by simp, ← h1]
            simp
          exact congrArg (fun b => (⟨b,
            some (.arrayT ((((e :: es₂₁) ++ e' :: es₂₂).length : Int)) (es₁.map replyS) none)⟩
            : RedisParser)) hbuf]
        exact hloop
      simp only [hdec]
  rcases List.append_eq_append_iff.mp
      (show c ++ s' = r ++ (es₂.map encS).flatten from hsplit.symm) with
    ⟨m, hm1, hm2⟩ | ⟨m, hm1, hm2⟩
  · cases m with
    | nil =>
      refine key [] ?_ ?_
      · have h := hm1
        simp at h
        simp [h]
      · have h := hm2
        simp at h
        simp [h]
    | cons mh mt =>
      -- the chunk stays inside element `e`
      have hqr' : encS e = (q ++ c) ++ (mh :: mt) := by
        rw [h1, hm1]
        simp
      obtain ⟨stc, hsc⟩ := scut_exists hwe hqr' (by simp)
        (some (.arrayT ((es₂.length : Int) + 1)
          (es₁.map replyS ++ ([] : List SUnit).map replyS) none))
      obtain ⟨fl, hloop⟩ := sloop_partial ([] : List SUnit) (by simp) e hwe es₂ (q ++ c)
        (mh :: mt) (es₁.map replyS)
        (some (.arrayT (((([] : List SUnit) ++ e :: es₂).length : Int)) (es₁.map replyS) none))
        (decide ((⟨(([] : List SUnit).map encS).flatten ++ (q ++ c),
            some (.arrayT (((([] : List SUnit) ++ e :: es₂).length : Int)) (es₁.map replyS) none)⟩
          : RedisParser)._current
          = some (.arrayT (((([] : List SUnit) ++ e :: es₂).length : Int)) (es₁.map replyS) none)))
        stc hsc
        (Or.inr ⟨by simp, _, _, rfl⟩)
      refine ⟨stc, ?_, ?_⟩
      · rw [hm2]
        rw [show (('*' :: natRepr (es₁ ++ e :: es₂).length ++ CRLF)
              ++ ((es₁.map encS).flatten ++ q)) ++ c
            = ('*' :: natRepr (es₁ ++ e :: es₂).length ++ CRLF)
              ++ ((es₁.map encS).flatten ++ (q ++ c)) from by simp]
        exact UCut.elems (by simpa using hsc)
      · refine Computes.of_get (fl + 3) ?_ (by simp)
        rw [get_resume rfl]
        rw [show ((⟨q, some (.arrayT ((es₂.length : Int) + 1) (es₁.map replyS) none)⟩
              : RedisParser).feed c)
            = (⟨q ++ c, some (.arrayT ((es₂.length : Int) + 1) (es₁.map replyS) none)⟩
              : RedisParser) from rfl]
        rw [RedisParser.resume]
        have hdec : Task._decode (fl + 1)
            (⟨q ++ c, some (.arrayT ((es₂.length : Int) + 1) (es₁.map replyS) none)⟩
              : RedisParser)
            (.arrayT ((es₂.length : Int) + 1) (es₁.map replyS) none) none
            = .out none stc := by
          rw [Task._decode]
          rw [if_neg (by omega : ¬ ((es₂.length : Int) + 1) = -1)]
          rw [show ((es₂.length : Int) + 1) = (((([] : List SUnit) ++ e :: es₂).length : Int))
            from by push_cast [List.length_append, List.length_cons, List.length_nil]; ring]
          rw [show (⟨q ++ c,
                some (.arrayT (((([] : List SUnit) ++ e :: es₂).length : Int))
                  (es₁.map replyS) none)⟩ : RedisParser)
              = (⟨(([] : List SUnit).map encS).flatten ++ (q ++ c),
                  some (.arrayT (((([] : List SUnit) ++ e :: es₂).length : Int))
                    (es₁.map replyS) none)⟩ : RedisParser) from by
            exact congrArg (fun b => (⟨b,
              some (.arrayT (((([] : List SUnit) ++ e :: es₂).length : Int))
                (es₁.map replyS) none)⟩ : RedisParser)) (by simp)]
          exact hloop
        simp only [hdec]
  · exact key m hm1 hm2

/-- `ucut_partial`, element cut, payload sub-case: resuming the pending
`StringTask` with more bytes either stalls again or completes the bulk
and walks further elements before stalling. -/
theorem ucut_partial_elems_payload {es₁ : List SUnit} {es₂ : List SUnit}
    {b q₂ r : List Char}
    (hu : wfU (.uarray (es₁ ++ .ubulk b :: es₂)) = true)
    (h1 : q₂ ++ r = b ++ CRLF) (h2 : r ≠ [])
    {c s' : List Char} (hsplit : r ++ (es₂.map encS).flatten = c ++ s') (hne : s' ≠ []) :
    ∃ st', UCut (.uarray (es₁ ++ .ubulk b :: es₂))
        ((('*' :: natRepr (es₁ ++ .ubulk b :: es₂).length ++ CRLF)
          ++ ((es₁.map encS).flatten ++ ('$' :: natRepr b.length ++ CRLF ++ q₂))) ++ c)
        s' st'
      ∧ Computes ((⟨q₂, some (.stringT (b.length : Int)
            (some (.arrayT ((es₂.length : Int) + 1) (es₁.map replyS) none)))⟩
          : RedisParser).feed c)
        (.out none st') := by
  have hszall : (es₁ ++ .ubulk b :: es₂).length < 2 ^ 31
      ∧ ∀ x ∈ es₁ ++ .ubulk b :: es₂, wfS x = true := by
    have h := hu
    simp only [wfU, Bool.and_eq_true, decide_eq_true_eq, List.all_eq_true] at h
    exact h
  have hb : b.length < 2 ^ 31 := by
    have := hszall.2 (.ubulk b) (by simp)
    simpa [wfS] using this
  have h1' : ∀ t : List Char, q₂ ++ (r ++ t) = b ++ (CRLF ++ t) := fun t => by
    rw [← List.append_assoc, h1, List.append_assoc]
  have key : ∀ m : List Char, c = r ++ m → (es₂.map encS).flatten = m ++ s' →
      ∃ st', UCut (.uarray (es₁ ++ .ubulk b :: es₂))
          ((('*' :: natRepr (es₁ ++ .ubulk b :: es₂).length ++ CRLF)
            ++ ((es₁.map encS).flatten ++ ('$' :: natRepr b.length ++ CRLF ++ q₂))) ++ c)
          s' st'
        ∧ Computes ((⟨q₂, some (.stringT (b.length : Int)
              (some (.arrayT ((es₂.length : Int) + 1) (es₁.map replyS) none)))⟩
            : RedisParser).feed c)
          (.out none st') := by
    intro m hm1 hm2
    obtain ⟨es₂₁, e', es₂₂, q', r', hd1, hd2, hd3, hd4, hd5⟩ := elems_decompose es₂ m s' hm2 hne
    have hwe' : wfS e' = true := hszall.2 e' (by rw [hd1]; simp)
    obtain ⟨stc, hsc⟩ := scut_exists hwe' hd3 hd4
      (some (.arrayT ((es₂₂.length : Int) + 1)
        ((es₁.map replyS ++ [RValue.bulk b]) ++ es₂₁.map replyS) none))
    obtain ⟨fl, hloop⟩ := sloop_partial es₂₁
      (fun y hy => hszall.2 y (by rw [hd1]; simp [hy]))
      e' hwe' es₂₂ q' r' (es₁.map replyS ++ [RValue.bulk b]) none
      (decide ((⟨(es₂₁.map encS).flatten ++ q', none⟩ : RedisParser)._current
        = some (.arrayT ((es₂.length : Int) + 1) (es₁.map replyS) none)))
      stc hsc (Or.inl rfl)
    refine ⟨stc, ?_, ?_⟩
    · rw [hd5, hd1]
      rw [show es₁ ++ .ubulk b :: (es₂₁ ++ e' :: es₂₂) = (es₁ ++ .ubulk b :: es₂₁) ++ e' :: es₂₂
        from by simp]
      rw [show (('*' :: natRepr ((es₁ ++ .ubulk b :: es₂₁) ++ e' :: es₂₂).length ++ CRLF)
            ++ ((es₁.map encS).flatten ++ ('$' :: natRepr b.length ++ CRLF ++ q₂))) ++ c
          = ('*' :: natRepr ((es₁ ++ .ubulk b :: es₂₁) ++ e' :: es₂₂).length ++ CRLF)
            ++ (((es₁ ++ .ubulk b :: es₂₁).map encS).flatten ++ q') from by
        rw [hm1, hd2]
        simp [List.map_append, encS, obj_bulk, h1']]
      exact UCut.elems (by simpa using hsc)
    · refine Computes.of_get (fl + 4) ?_ (by simp)
      rw [get_resume rfl]
      rw [show ((⟨q₂, some (.stringT (b.length : Int)
              (some (.arrayT ((es₂.length : Int) + 1) (es₁.map replyS) none)))⟩
            : RedisParser).feed c)
          = (⟨b ++ '\r' :: '\n' :: m, some (.stringT (b.length : Int)
              (some (.arrayT ((es₂.length : Int) + 1) (es₁.map replyS) none)))⟩
            : RedisParser) from by
        have hbuf : q₂ ++ c = b ++ '\r' :: '\n' :: m := by
          rw [hm1, h1' m]
          simp [CRLF]
        exact congrArg (fun x => (⟨x, some (.stringT (b.length : Int)
          (some (.arrayT ((es₂.length : Int) + 1) (es₁.map replyS) none)))⟩
          : RedisParser)) hbuf]
      rw [RedisParser.resume]
      have hdec1 : Task._decode (fl + 2)
          (⟨b ++ '\r' :: '\n' :: m, some (.stringT (b.length : Int)
            (some (.arrayT ((es₂.length : Int) + 1) (es₁.map replyS) none)))⟩ : RedisParser)
          (.stringT (b.length : Int)
            (some (.arrayT ((es₂.length : Int) + 1) (es₁.map replyS) none))) none
          = .out (some (.bulk b)) ⟨m, none⟩ :=
        _decode_string_take b '\r' '\n' m (by omega)
      simp only [hdec1, Task.next]
      rw [RedisParser.resume]
      have hdec2 : Task._decode (fl + 1) (⟨m, none⟩ : RedisParser)
          (.arrayT ((es₂.length : Int) + 1) (es₁.map replyS) none) (some (.bulk b))
          = .out none stc := by
        rw [Task._decode]
        rw [if_neg (by omega : ¬ ((es₂.length : Int) + 1) = -1)]
        rw [show ((es₂.length : Int) + 1 - 1) = (((es₂₁ ++ e' :: es₂₂).length : Int))
          from by rw [hd1]; ring]
        rw [hd2]
        exact hloop
      simp only [hdec2]
  rcases List.append_eq_append_iff.mp
      (show c ++ s' = r ++ (es₂.map encS).flatten from hsplit.symm) with
    ⟨m, hm1, hm2⟩ | ⟨m, hm1, hm2⟩
  · cases m with
    | nil =>
      refine key [] ?_ ?_
      · have h := hm1
        simp at h
        simp [h]
      · have h := hm2
        simp at h
        simp [h]
    | cons mh mt =>
      -- the StringTask stalls again
      have h1n : (q₂ ++ c) ++ (mh :: mt) = b ++ CRLF := by
        rw [← h1, hm1]
        simp
      refine ⟨⟨q₂ ++ c, some (.stringT (b.length : Int)
          (some (.arrayT ((es₂.length : Int) + 1) (es₁.map replyS) none)))⟩, ?_, ?_⟩
      · rw [hm2]
        rw [show (('*' :: natRepr (es₁ ++ .ubulk b :: es₂).length ++ CRLF)
              ++ ((es₁.map encS).flatten ++ ('$' :: natRepr b.length ++ CRLF ++ q₂))) ++ c
            = ('*' :: natRepr (es₁ ++ .ubulk b :: es₂).length ++ CRLF)
              ++ ((es₁.map encS).flatten ++ ('$' :: natRepr b.length ++ CRLF ++ (q₂ ++ c)))
          from by simp]
        exact UCut.elems (SCut.payload
          (some (.arrayT ((es₂.length : Int) + 1) (es₁.map replyS) none)) h1n (by simp))
      · refine Computes.of_get (0 + 3) ?_ (by simp)
        rw [get_resume rfl]
        rw [RedisParser.resume]
        have hdec : Task._decode (0 + 1)
            ((⟨q₂, some (.stringT (b.length : Int)
                (some (.arrayT ((es₂.length : Int) + 1) (es₁.map replyS) none)))⟩
              : RedisParser).feed c)
            (.stringT (b.length : Int)
              (some (.arrayT ((es₂.length : Int) + 1) (es₁.map replyS) none))) none
            = .out none ⟨q₂ ++ c, some (.stringT (b.length : Int)
                (some (.arrayT ((es₂.length : Int) + 1) (es₁.map replyS) none)))⟩ :=
          _decode_string_stall (by omega) (by
            have hq : (q₂ ++ c).length ≤ b.length + 1 := payload_piece_le h1n (by simp)
            rw [show ((b.length : Int) + 2) % 2 ^ 64 = (b.length : Int) + 2 from
              Int.emod_eq_of_lt (by omega) (by omega)]
            simp only [not_le]
            have hb2 : ((((⟨q₂, some (.stringT (b.length : Int)
                (some (.arrayT ((es₂.length : Int) + 1) (es₁.map replyS) none)))⟩
                : RedisParser)).feed c).buffer).length = (q₂ ++ c).length := rfl
            rw [hb2]
            omega)
        simp only [hdec]
  · exact key m hm1 hm2

/-- Feeding only part of a cut unit's remaining bytes: one `getReply`
returns Incomplete and the state advances to the deeper cut. -/
theorem ucut_partial {u : RUnit} {p s : List Char} {st : RedisParser}
    (hu : wfU u = true) (hcut : UCut u p s st)
    {c s' : List Char} (hsplit : s = c ++ s') (hne : s' ≠ []) :
    ∃ st', UCut u (p ++ c) s' st' ∧ Computes (st.feed c) (.out none st') := by
  cases hcut with
  | @scalar e q r st hs =>
    exact ucut_partial_scalar (by simpa [wfU] using hu) (UCut.scalar hs) hsplit hne
  | @header es p' sH h1 h2 h3 =>
    exact ucut_partial_header hu h1 h2 h3 hsplit hne
  | @elems es₁ e es₂ q r st hs =>
    cases hs with
    | line ctx h1 h2 h3 =>
      exact ucut_partial_elems_line hu h1 h2 h3 hsplit hne
    | @payload b q₂ r' ctx h1 h2 =>
      exact ucut_partial_elems_payload hu h1 h2 hsplit hne

/-- One chunk's drain: from any position in a well-formed unit stream,
feeding a chunk and draining emits exactly the units the chunk
completes, ending at the position after that chunk's bytes. -/
theorem master_drain : ∀ (us : List RUnit), (∀ u ∈ us, wfU u = true) →
    ∀ (st : RedisParser) (rem : List Char), PosP st rem us →
    ∀ (c rest : List Char), rem = c ++ rest →
    ∃ (out : List RValue) (st' : RedisParser) (us' : List RUnit),
      Drains (st.feed c) out st' ∧ PosP st' rest us'
        ∧ us.map replyU = out ++ us'.map replyU ∧ ∀ u ∈ us', wfU u = true := by
  intro us
  induction us with
  | nil =>
    intro _ st rem hpos c rest hsplit
    rcases hpos with ⟨-, hrem, hst⟩ | ⟨u, us₀, p, s, hus, hcut, hrem⟩
    · subst hst
      rw [hrem] at hsplit
      obtain ⟨hc, hrest⟩ := List.append_eq_nil.mp hsplit.symm
      subst hc
      subst hrest
      exact ⟨[], initParser, [], Drains.done computes_empty, Or.inl ⟨rfl, rfl, rfl⟩,
        rfl, by simp⟩
    · exact absurd hus (by simp)
  | cons u us₀ IH =>
    intro hw st rem hpos c rest hsplit
    rcases hpos with ⟨habs, -, -⟩ | ⟨u', us₀', p, s, hus, hcut, hrem⟩
    · exact absurd habs (by simp)
    · injection hus with hu1 hu2
      subst hu1
      subst hu2
      rw [hrem] at hsplit
      have key : ∀ m : List Char, c = s ++ m → encUs us₀ = m ++ rest →
          ∃ (out : List RValue) (st' : RedisParser) (us' : List RUnit),
            Drains (st.feed c) out st' ∧ PosP st' rest us'
              ∧ (u :: us₀).map replyU = out ++ us'.map replyU
              ∧ ∀ x ∈ us', wfU x = true := by
        intro m hm1 hm2
        subst hm1
        have hcmp := ucut_complete (hw u (by simp)) hcut m
        obtain ⟨out₂, st', us', hdr, hpos', hmap, hwf'⟩ :=
          IH (fun x hx => hw x (by simp [hx])) initParser (encUs us₀) (posp_boundary us₀)
            m rest hm2
        refine ⟨replyU u :: out₂, st', us', Drains.step hcmp hdr, hpos', ?_, hwf'⟩
        simp [hmap]
      rcases List.append_eq_append_iff.mp hsplit.symm with ⟨m, hm1, hm2⟩ | ⟨m, hm1, hm2⟩
      · cases m with
        | nil =>
          refine key [] ?_ ?_
          · have h := hm1
            simp at h
            simp [h]
          · have h := hm2
            simp at h
            simp [h]
        | cons mh mt =>
          obtain ⟨st', hcut', hcmp⟩ := ucut_partial (hw u (by simp)) hcut hm1 (by simp)
          exact ⟨[], st', u :: us₀, Drains.done hcmp,
            Or.inr ⟨u, us₀, p ++ c, mh :: mt, rfl, hcut', hm2⟩, by simp, hw⟩
      · exact key m hm1 hm2

/-- Chunked feeding with drains over a well-formed unit stream: the
collected outputs are exactly the units' replies, and the final state is
the initial one. -/
theorem feeddrains_units : ∀ (chunks : List (List Char)) (us : List RUnit)
    (st : RedisParser) (rem : List Char),
    (∀ u ∈ us, wfU u = true) → PosP st rem us → chunks.flatten = rem →
    FeedDrains st chunks (us.map replyU) initParser := by
  intro chunks
  induction chunks with
  | nil =>
    intro us st rem hw hpos hflat
    rcases hpos with ⟨hus, hrem, hst⟩ | ⟨u, us₀, p, s, hus, hcut, hrem⟩
    · subst hus
      subst hst
      exact FeedDrains.nil
    · exfalso
      have hs : s = [] := by
        have h := hflat
        rw [hrem] at h
        exact (List.append_eq_nil.mp h.symm).1
      exact hcut.s_ne hs
  | cons c cs IH =>
    intro us st rem hw hpos hflat
    obtain ⟨out, st', us', hdr, hpos', hmap, hwf'⟩ :=
      master_drain us hw st rem hpos c cs.flatten (by rw [← hflat]; simp)
    have hfd := IH us' st' cs.flatten hwf' hpos' rfl
    have hc := FeedDrains.cons hdr hfd
    rw [hmap]
    exact hc

/-- C1 (amended): fragmentation invariance holds on streams of
well-formed single-level units: for every sequence of units whose line
texts are CR-free and whose lengths fit in a C `int`, with aggregates
containing only scalar elements, and for EVERY partition of the encoded
byte stream into chunks (split anywhere, including mid-header and
mid-payload), feeding the chunks in turn and draining `getReply` after
each feed yields exactly the units' replies in order and returns the
parser to its initial state — in particular the same outputs as feeding
the whole stream in one call.  The original unrestricted claim is
false: a protocol error clears the whole buffer, so bytes after the bad
unit are kept or discarded depending on the partition; and a nested
array header dispatched while a resume holds `_current` non-null is
consumed but its task dropped, breaking invariance for deeper nesting. -/
theorem claim1_fragmentation_amended (us : List RUnit) (hw : ∀ u ∈ us, wfU u = true)
    (chunks : List (List Char)) (hc : chunks.flatten = encUs us) :
    FeedDrains initParser chunks (us.map replyU) initParser :=
  feeddrains_units chunks us initParser (encUs us) hw (posp_boundary us) hc

/-- Witness for C1: the stream `"+OK\r\n*1\r\n$1\r\na\r\n"` (a status
unit and a one-element array unit) split mid-way through the array
header still drains to `[Status("OK"), Array(["a"])]` and ends idle. -/
theorem claim1_witness :
    (∀ u ∈ [RUnit.scalar (.ustatus ['O', 'K']), .uarray [.ubulk ['a']]], wfU u = true) ∧
    (["+OK\r\n*1\r".toList, "\n$1\r\na\r\n".toList] : List (List Char)).flatten
      = encUs [RUnit.scalar (.ustatus ['O', 'K']), .uarray [.ubulk ['a']]] ∧
    FeedDrains initParser ["+OK\r\n*1\r".toList, "\n$1\r\na\r\n".toList]
      [.status ['O', 'K'], .array [.bulk ['a']]] initParser :=
  ⟨by decide, by decide,
    claim1_fragmentation_amended [RUnit.scalar (.ustatus ['O', 'K']), .uarray [.ubulk ['a']]]
      (by decide) ["+OK\r\n*1\r".toList, "\n$1\r\na\r\n".toList] (by decide)⟩

/-- Counterexample to the original C1: the byte sequence
`"X\r\n+OK\r\n"` fed whole yields only a ProtocolError — the protocol
error clears the entire buffer, discarding the following `"+OK\r\n"` —
while fed as the two chunks `"X\r\n"` and `"+OK\r\n"` it yields the
ProtocolError and then Status("OK").  The ordered non-Incomplete outputs
differ between partitions of the same byte sequence. -/
theorem claim1_counterexample :
    FeedDrains initParser ["X\r\n+OK\r\n".toList]
      [.protoErr protocolErrorMsg] initParser ∧
    FeedDrains initParser ["X\r\n".toList, "+OK\r\n".toList]
      [.protoErr protocolErrorMsg, .status ['O', 'K']] initParser ∧
    ("X\r\n+OK\r\n".toList : List Char) = "X\r\n".toList ++ "+OK\r\n".toList ∧
    ([RValue.protoErr protocolErrorMsg] : List RValue)
      ≠ [.protoErr protocolErrorMsg, .status ['O', 'K']] := by
  refine ⟨?_, ?_, by decide, by decide⟩
  · have h1 : Computes (initParser.feed "X\r\n+OK\r\n".toList)
        (.out (some (.protoErr protocolErrorMsg)) ⟨[], none⟩) :=
      Computes.of_get 3 (by decide) (by decide)
    exact FeedDrains.cons (Drains.step h1 (Drains.done computes_empty)) FeedDrains.nil
  · have h1 : Computes (initParser.feed "X\r\n".toList)
        (.out (some (.protoErr protocolErrorMsg)) ⟨[], none⟩) :=
      Computes.of_get 3 (by decide) (by decide)
    have h2 : Computes ((⟨[], none⟩ : RedisParser).feed "+OK\r\n".toList)
        (.out (some (.status ['O', 'K'])) ⟨[], none⟩) :=
      Computes.of_get 3 (by decide) (by decide)
    exact FeedDrains.cons (Drains.step h1 (Drains.done computes_empty))
      (FeedDrains.cons (Drains.step h2 (Drains.done computes_empty)) FeedDrains.nil)

/-- Witness for C10: a bulk of declared length 3 whose trailing two bytes
are `"XY"` rather than CRLF still yields `"foo"` and drops 5 bytes. -/
theorem claim10_witness :
    Task._decode 5 ⟨"fooXYrest".toList, none⟩ (.stringT 3 none) none =
      .out (some (.bulk "foo".toList)) ⟨"rest".toList, none⟩ := by
  have h := claim10_bulk_trailer_unchecked 3 "fooXYrest".toList none none none 4
    (by decide) (by decide)
  exact h.trans (by decide)

end Pulsar
